import Mathlib

namespace GoCanvas

/-!
Verification of the concurrent pagination engine of the go-canvas client.

The development shallowly embeds the three layers of the source:

* the Link-header machinery (`newlink`, `newLinkedResource`, the regex
  `<(.*?)>; rel="(.*?)"` as an executable scanner, `firstReq`);
* the paginated fetch engine and its consumers (`channel`, `collect`,
  `onlyFiles`/`onlyFolders`) as a labelled small-step system: each page job
  is the list of messages it will push (its objects, or its single error),
  deliveries are rendezvous with a pluggable consumer state machine, the
  wait group is a list of done flags and the channel close is a step guarded
  by all of them;
* the synchronous error path of `channel` (first request failed) as a tiny
  system of goroutines and unbuffered-channel operations, in which a send
  can only complete by rendezvous with a *different* goroutine.

Go interface values that may be nil are `Option`; a Go pair
`(value, error)` is `Except` when exactly one side is meaningful, and an
actual pair when, as in `newLinkedResource` and `newlink`, both returns
matter.
-/

deriving instance DecidableEq for Except

/- ===================================================================
   §1  strconv / net-url helpers used by newlink
   =================================================================== -/

/-- Base-10 digit accumulation; fails on the first non-digit character. -/
def parseDigitsAux : List Char → Nat → Option Nat
  | [], acc => some acc
  | c :: t, acc =>
    if c.isDigit then parseDigitsAux t (acc * 10 + (c.toNat - '0'.toNat))
    else none

/-- Models strconv.ParseInt(s, 10, 32): an optional sign, then one or more
base-10 digits, with the value inside the int32 range. `none` exactly when
Go reports a non-nil error: empty input, a stray character, or overflow. -/
def parseInt32 (s : String) : Option Int :=
  let core : List Char → Int → Option Int := fun ds sign =>
    match ds with
    | [] => none
    | _ :: _ =>
      match parseDigitsAux ds 0 with
      | none => none
      | some n =>
        let v : Int := sign * (n : Int)
        if -(2 ^ 31) ≤ v ∧ v ≤ 2 ^ 31 - 1 then some v else none
  match s.toList with
  | '+' :: t => core t 1
  | '-' :: t => core t (-1)
  | t => core t 1

/-- Split a character list at every occurrence of the separator. -/
def splitChar (sep : Char) : List Char → List (List Char)
  | [] => [[]]
  | c :: t =>
    match splitChar sep t with
    | h :: r => if c = sep then [] :: h :: r else (c :: h) :: r
    | [] => [[c]]

/-- net/url: the raw query of a URL string is what follows the first
question mark of the part before the first number sign. -/
def rawQuery (u : String) : List Char :=
  let beforeFrag := u.toList.takeWhile (fun c => c ≠ '#')
  match beforeFrag.dropWhile (fun c => c ≠ '?') with
  | [] => []
  | _ :: t => t

/-- One key=value piece of a query string, split at its first equals sign;
a piece without an equals sign is a key with an empty value. -/
def kvOf (piece : List Char) : List Char × List Char :=
  (piece.takeWhile (fun c => c ≠ '='),
   match piece.dropWhile (fun c => c ≠ '=') with
   | [] => []
   | _ :: t => t)

/-- Models u.Query().Get(key): the first value listed for the key, and ""
when the key is absent. Percent-decoding is not modelled: the engine only
ever reads the digits of the page parameter. -/
def queryGet (u : String) (key : String) : String :=
  match (splitChar '&' (rawQuery u)).findSome?
      (fun piece =>
        let kv := kvOf piece
        if kv.1 = key.toList then some kv.2 else none) with
  | some v => String.mk v
  | none => ""

/- ===================================================================
   §2  newlink and the Link-header scanner
   =================================================================== -/

/-- The error fmt.Errorf("could not parse page num: %w", err) of newlink,
carrying the raw text of the page parameter that failed to parse. -/
inductive ParseErr
  | pageNum (raw : String)
deriving DecidableEq

/-- The link struct: the parsed URL (kept as its source string) and the
page number read from its page query parameter. -/
structure Link where
  url : String
  page : Int
deriving DecidableEq

/-- newlink. net/url.Parse is modelled as total — it fails only on exotic
inputs (control characters, malformed escapes) that no claim concerns — so
every matched URL reaches the page-parameter branch. The result is Go's
pair (*link, error): (nil, err) on failure, (link, nil) on success. -/
def newlink (urlstr : String) : Option Link × Option ParseErr :=
  match parseInt32 (queryGet urlstr "page") with
  | none => (none, some (ParseErr.pageNum (queryGet urlstr "page")))
  | some p => (some { url := urlstr, page := p }, none)

/-- Consume the literal lit from the front of s. -/
def dropLit : List Char → List Char → Option (List Char)
  | [], s => some s
  | _ :: _, [] => none
  | l :: lt, c :: ct => if c = l then dropLit lt ct else none

/-- Shortest split s = g ++ stop ++ rest with g free of newlines: the
non-greedy group (.*?) of resourceRegex followed by the literal stop (the
regex atom . does not match a newline). -/
def scanTo (stop : List Char) : List Char → Option (List Char × List Char)
  | [] =>
    (match dropLit stop [] with
     | some r => some ([], r)
     | none => none)
  | c :: ct =>
    match dropLit stop (c :: ct) with
    | some r => some ([], r)
    | none =>
      if c = '\n' then none
      else
        match scanTo stop ct with
        | some (g, r) => some (c :: g, r)
        | none => none

/-- The literal between the two capture groups of resourceRegex. -/
def relLit : List Char := ['>', ';', ' ', 'r', 'e', 'l', '=', '"']

/-- One match of resourceRegex `<(.*?)>; rel="(.*?)"` anchored at the head
of s: the two capture groups and the remainder after the match. -/
def matchAt (s : List Char) : Option ((String × String) × List Char) :=
  match dropLit ['<'] s with
  | none => none
  | some s1 =>
    match scanTo relLit s1 with
    | none => none
    | some (g1, r1) =>
      match scanTo ['"'] r1 with
      | none => none
      | some (g2, r2) => some ((String.mk g1, String.mk g2), r2)

/-- Successive non-overlapping leftmost matches of resourceRegex, i.e.
resourceRegex.FindAllStringSubmatch(links, -1) projected to the url and rel
groups. The fuel only bounds the recursion: a match always consumes at
least one character (`matchAt_rest_lt`), so starting from the input length
the fuel is never exhausted (`findLinksGo_fuel`). -/
def findLinksGo : Nat → List Char → List (String × String)
  | 0, _ => []
  | _ + 1, [] => []
  | fuel + 1, c :: ct =>
    match matchAt (c :: ct) with
    | some (m, rest) => m :: findLinksGo fuel rest
    | none => findLinksGo fuel ct

def findLinks (s : String) : List (String × String) :=
  findLinksGo s.toList.length s.toList

/- ===================================================================
   §3  linkedResource and firstReq
   =================================================================== -/

/-- The links field of linkedResource: a Go map from rel name to *link.
A mapped value of none is Go's nil pointer — the failing two-value
assignment in newLinkedResource stores one. -/
abbrev LinksMap := List (String × Option Link)

/-- Go map assignment m[rel] = v (overwrite or append). -/
def setRel : LinksMap → String → Option Link → LinksMap
  | [], rel, v => [(rel, v)]
  | (r, w) :: t, rel, v =>
    if r = rel then (rel, v) :: t else (r, w) :: setRel t rel v

/-- Go comma-ok map read m[rel]: some w when the key is present (w itself
may be a nil link), none when absent. -/
def getRel : LinksMap → String → Option (Option Link)
  | [], _ => none
  | (r, w) :: t, rel => if r = rel then some w else getRel t rel

/-- The match loop of newLinkedResource. Go's two-value assignment
`resource.links[part[2]], err = newlink(part[1])` stores newlink's first
return into the map before the error check, so a failing match still
inserts its rel, mapped to a nil link, and the loop then returns the
partially built map together with the error. -/
def linkLoop : List (String × String) → LinksMap → LinksMap × Option ParseErr
  | [], m => (m, none)
  | (u, rel) :: rest, m =>
    let res := newlink u
    let m1 := setRel m rel res.1
    match res.2 with
    | some e => (m1, some e)
    | none => linkLoop rest m1

/-- newLinkedResource, applied to the value of the Link header (the Go
code reads it with header.Get of the Link key). -/
def newLinkedResource (linkHeader : String) : LinksMap × Option ParseErr :=
  linkLoop (findLinks linkHeader) []

/-- An HTTP response as the engine consumes it: the Link header value and
the body handed to the page decode function. -/
structure HttpResp (β : Type) where
  link : String
  body : β
deriving DecidableEq

/-- The errors the first request can produce: a transport error from get,
a parse error from newLinkedResource, errors.New("could not find last
page"), and the Go nil dereference of lastpage.page — the last is
unreachable because the map holds a nil link only when newLinkedResource
also returned an error. -/
inductive EngErr (ε : Type)
  | transport (e : ε)
  | parse (e : ParseErr)
  | lastNotFound
  | nilLink
deriving DecidableEq

/-- get(p.do, path, q) for a given page: one transport call, recorded in
the call log. -/
def getW (t : Nat → Except ε (HttpResp β)) (page : Nat) (log : List Nat) :
    Except ε (HttpResp β) × List Nat :=
  (t page, log ++ [page])

/-- firstReq together with its transport-call log: get page 1, parse the
response's Link header, and read the page count from the "last" relation. -/
def firstReqW (t : Nat → Except ε (HttpResp β)) :
    Except (EngErr ε) (Int × HttpResp β) × List Nat :=
  let gr := getW t 1 []
  let res : Except (EngErr ε) (Int × HttpResp β) :=
    match gr.1 with
    | .error e => .error (.transport e)
    | .ok resp =>
      match newLinkedResource resp.link with
      | (_, some pe) => .error (.parse pe)
      | (m, none) =>
        match getRel m "last" with
        | none => .error .lastNotFound
        | some none => .error .nilLink
        | some (some lk) => .ok (lk.page, resp)
  (res, gr.2)

def firstReq (t : Nat → Except ε (HttpResp β)) :
    Except (EngErr ε) (Int × HttpResp β) :=
  (firstReqW t).1

/-- What channel does after firstReq: on error the caller itself runs the
error path (send the error, close both channels, return nil); on success
it records n, registers n jobs on the wait group and spawns them. -/
inductive ChanOutcome (ε β : Type)
  | errPath (e : EngErr ε)
  | spawned (n : Int) (resp : HttpResp β)
deriving DecidableEq

def channelModel (t : Nat → Except ε (HttpResp β)) : ChanOutcome ε β :=
  match firstReq t with
  | .error e => .errPath e
  | .ok (n, r) => .spawned n r

/-- Goroutines the success path launches for page fetching: one for the
already-fetched page 1 plus one per page in 2..n. The error path launches
none. -/
def jobsLaunched : ChanOutcome ε β → Nat
  | .errPath _ => 0
  | .spawned n _ => 1 + (if 2 ≤ n then (n - 1).toNat else 0)

/- ===================================================================
   §4  The fetch engine as a labelled small-step system
   =================================================================== -/

/-- One value travelling from a page job to the consumer: an object sent on
p.objects (none is a nil interface value) or an error sent on p.errs. -/
inductive Msg (α ε : Type)
  | obj (o : Option α)
  | err (e : ε)
deriving DecidableEq

/-- A consumer of the two streams, as a state machine: recvMsg is the
rendezvous for a sent message (none: the consumer is not receiving, so the
sender stays blocked); recvClosed is a receive on the closed object channel
(yielding Go's nil); internal is a consumer-only step such as reading the
quit channel. -/
structure Consumer (α ε σ : Type) where
  recvMsg : σ → Msg α ε → Option σ
  recvClosed : σ → Option σ
  internal : σ → Option σ

/-- The engine mid-run: per job the messages it still has to push (index i
is the job of page i+1), the per-job done flags of the wait group, whether
the closer goroutine has closed the channels, the consumer state, and a
ghost log of completed deliveries (job index, message). -/
structure EngSt (α ε σ : Type) where
  jobs : List (List (Msg α ε))
  done : List Bool
  closed : Bool
  cons : σ
  log : List (Nat × Msg α ε)
deriving DecidableEq

/-- Scheduler labels: a delivery by job i of its next message; job i
reaching wg.Done; the closer observing wg.Wait and closing both channels;
the consumer receiving nil from the closed object channel; a
consumer-internal step. Receiving nil from the closed error channel is a
no-op in every consumer (the `err != nil` guard fails) and is left out as
pure stutter. -/
inductive Ev
  | deliver (i : Nat)
  | jobDone (i : Nat)
  | close
  | recvClosed
  | internal
deriving DecidableEq

def step (C : Consumer α ε σ) (s : EngSt α ε σ) : Ev → Option (EngSt α ε σ)
  | .deliver i =>
    match s.jobs[i]? with
    | some (m :: rest) =>
      match C.recvMsg s.cons m with
      | some c1 =>
        some { s with
          jobs := s.jobs.set i rest
          cons := c1
          log := s.log ++ [(i, m)] }
      | none => none
    | _ => none
  | .jobDone i =>
    match s.jobs[i]?, s.done[i]? with
    | some [], some false => some { s with done := s.done.set i true }
    | _, _ => none
  | .close =>
    if s.closed then none
    else if s.done.all (fun b => b) then some { s with closed := true }
    else none
  | .recvClosed =>
    if s.closed then
      match C.recvClosed s.cons with
      | some c1 => some { s with cons := c1 }
      | none => none
    else none
  | .internal =>
    match C.internal s.cons with
    | some c1 => some { s with cons := c1 }
    | none => none

/-- Run a schedule: none when some labelled step is not enabled. -/
def exec (C : Consumer α ε σ) : EngSt α ε σ → List Ev → Option (EngSt α ε σ)
  | s, [] => some s
  | s, ev :: evs =>
    match step C s ev with
    | some s1 => exec C s1 evs
    | none => none

/-- Decidable check that some step is enabled; `stuck_of_canStep` below
turns canStep = false into the statement that every labelled step is
disabled, i.e. the run is complete (or deadlocked). -/
def canStep (C : Consumer α ε σ) (s : EngSt α ε σ) : Bool :=
  (List.range s.jobs.length).any (fun i =>
    match s.jobs[i]? with
    | some (m :: _) => (C.recvMsg s.cons m).isSome
    | some [] => s.done[i]? == some false
    | none => false)
  || (!s.closed && s.done.all (fun b => b))
  || (s.closed && (C.recvClosed s.cons).isSome)
  || (C.internal s.cons).isSome

/- ===================================================================
   §5  The three consumers and the engine's initial state
   =================================================================== -/

/-- The collect select loop: running with the accumulated collection;
returned (collection, nil) after seeing a nil object or the closed object
channel; returned (nil, err) after receiving a non-nil error. Once
returned, collect receives nothing more (recvMsg is none: a sender stays
blocked forever). -/
inductive Coll (α ε : Type)
  | running (acc : List α)
  | retOk (acc : List α)
  | retErr (e : ε)
deriving DecidableEq

/-- collect's loop body: a non-nil error returns (nil, err); a nil object
returns (collection, nil); an object is appended. -/
def collectCons (α ε : Type) : Consumer α ε (Coll α ε) where
  recvMsg c m :=
    match c, m with
    | .running _, .err e => some (.retErr e)
    | .running acc, .obj none => some (.retOk acc)
    | .running acc, .obj (some o) => some (.running (acc ++ [o]))
    | _, _ => none
  recvClosed c :=
    match c with
    | .running acc => some (.retOk acc)
    | _ => none
  internal _ := none

/-- The Go return value of collect once the loop has returned: (nil, err)
on the error path and (collection, nil) on the clean path. -/
def collectReturn : Coll α ε → Option (Option (List α) × Option ε)
  | .running _ => none
  | .retOk acc => some (some acc, none)
  | .retErr e => some (none, some e)

/-- A consumer that drains both streams until they close, the consumption
regime under which the spec states the engine's delivery guarantees. -/
def drainCons (α ε : Type) : Consumer α ε Unit where
  recvMsg _ _ := some ()
  recvClosed _ := none
  internal _ := none

/-- The onlyFiles / onlyFolders select loop (the two are structurally
identical up to the concrete cast type, which is the payload type α here),
with the cancelling error policy of the claim installed: the handler sends
on the cap-1 quit channel. States: running (whether a quit value is
buffered; the objects forwarded so far), handlerBlocked (the handler hit a
full quit buffer and can never finish: the only quit reader is this very
goroutine), finished (the loop returned and defer closed the output). -/
inductive AdSt (α : Type)
  | running (quitPending : Bool) (out : List α)
  | handlerBlocked (out : List α)
  | finished (out : List α)
deriving DecidableEq

def adapterCons (α ε : Type) : Consumer α ε (AdSt α) where
  recvMsg c m :=
    match c, m with
    | .running q out, .obj (some o) => some (.running q (out ++ [o]))
    | .running _ out, .obj none => some (.finished out)
    | .running false out, .err _ => some (.running true out)
    | .running true out, .err _ => some (.handlerBlocked out)
    | _, _ => none
  recvClosed c :=
    match c with
    | .running _ out => some (.finished out)
    | _ => none
  internal c :=
    match c with
    | .running true out => some (.finished out)
    | _ => none

/-- What one page's fetch-and-decode yields: page 1 decodes the body of the
already-fetched first response; pages 2..n issue their own get and decode
its body. -/
def pageList (t : Nat → Except ε (HttpResp β))
    (pageInit : Nat → β → Except ε (List (Option α)))
    (r1 : HttpResp β) (p : Nat) : Except ε (List (Option α)) :=
  if p = 1 then pageInit 1 r1.body
  else
    match t p with
    | .error e => .error e
    | .ok resp => pageInit p resp.body

/-- The messages a job pushes: its single error, or its objects in order. -/
def msgsOf : Except ε (List (Option α)) → List (Msg α ε)
  | .error e => [.err e]
  | .ok l => l.map .obj

def jobMsgs (t : Nat → Except ε (HttpResp β))
    (pageInit : Nat → β → Except ε (List (Option α)))
    (r1 : HttpResp β) (p : Nat) : List (Msg α ε) :=
  msgsOf (pageList t pageInit r1 p)

/-- The job lists for pages 1..n (index i holds page i+1). -/
def initJobs (t : Nat → Except ε (HttpResp β))
    (pageInit : Nat → β → Except ε (List (Option α)))
    (r1 : HttpResp β) (n : Nat) : List (List (Msg α ε)) :=
  (List.range n).map (fun i => jobMsgs t pageInit r1 (i + 1))

/-- The engine right after p.wg.Add(n) and the spawning of the n jobs and
of the closer goroutine: nothing delivered, nothing done, channels open. -/
def initSt (jobs0 : List (List (Msg α ε))) (c0 : σ) : EngSt α ε σ :=
  { jobs := jobs0
    done := List.replicate jobs0.length false
    closed := false
    cons := c0
    log := [] }

/- ===================================================================
   §7  The delivery invariant
   =================================================================== -/

/-- The messages of job i already delivered, in delivery order. -/
def deliveredOf (log : List (Nat × Msg α ε)) (i : Nat) : List (Msg α ε) :=
  (log.filter (fun p => p.1 == i)).map Prod.snd

/-- The engine's structural invariant relative to the initial job lists:
lengths agree, a done job has no messages left, closed channels mean every
job is done, logged deliveries have job indices in range, and per job the
delivered prefix plus the pending suffix is exactly the job's message
list. -/
structure WF (jobs0 : List (List (Msg α ε))) (s : EngSt α ε σ) : Prop where
  doneLen : s.done.length = s.jobs.length
  jobsLen : s.jobs.length = jobs0.length
  doneEmpty : ∀ (i : Nat), s.done[i]? = some true → s.jobs[i]? = some []
  closedDone : s.closed = true → ∀ (i : Nat), i < s.done.length →
    s.done[i]? = some true
  logIdx : ∀ p ∈ s.log, p.1 < jobs0.length
  logJobs : ∀ (i : Nat) (l l0 : List (Msg α ε)),
    s.jobs[i]? = some l → jobs0[i]? = some l0 →
    deliveredOf s.log i ++ l = l0

/- ===================================================================
   §8  The collect invariant
   =================================================================== -/

/-- The errors received so far, in order. -/
def errsOf (log : List (Nat × Msg α ε)) : List ε :=
  log.filterMap (fun p =>
    match p.2 with
    | .err e => some e
    | .obj _ => none)

/-- The non-nil objects received so far, in order. -/
def objsOf (log : List (Nat × Msg α ε)) : List α :=
  log.filterMap (fun p =>
    match p.2 with
    | .obj (some o) => some o
    | _ => none)

/-- No delivered message was a nil object. -/
def NilFree (log : List (Nat × Msg α ε)) : Prop :=
  ∀ p ∈ log, p.2 ≠ Msg.obj none

/-- What collect's loop state says about the delivery log: while running,
no error and no nil object came in and the collection is exactly the
received objects; a returned error is the one error received; a clean
return happened on the closed channel (all objects in hand) or at a nil
object (the objects received strictly before it). -/
def CInv (s : EngSt α ε (Coll α ε)) : Prop :=
  match s.cons with
  | .running acc => errsOf s.log = [] ∧ NilFree s.log ∧ acc = objsOf s.log
  | .retErr e => errsOf s.log = [e]
  | .retOk acc =>
    errsOf s.log = [] ∧
      ((NilFree s.log ∧ acc = objsOf s.log ∧ s.closed = true) ∨
        (∃ l1 i, s.log = l1 ++ [(i, Msg.obj none)] ∧ NilFree l1 ∧
          acc = objsOf l1))

/- ===================================================================
   §11  Claim C1
   =================================================================== -/

/-- The number of objects a page's decode call produced (0 for a failed
page; only used under hypotheses that make every page succeed). -/
def lenOf : Except ε (List (Option α)) → Nat
  | .ok l => l.length
  | .error _ => 0

/-- Decidable form of "this page's fetch and decode succeeded and decoded
only non-nil objects". -/
def cleanPageB : Except ε (List (Option α)) → Bool
  | .ok l => l.all Option.isSome
  | .error _ => false

def c1t : Nat → Except Unit (HttpResp Nat) := fun p =>
  .ok ⟨"<https://canvas.test/api/v1/folders?page=3>; rel=\"last\"", p⟩

def c1decode : Nat → Nat → Except Unit (List (Option Nat)) := fun p _ =>
  .ok [some (2 * p), some (2 * p + 1)]

def c1r : HttpResp Nat :=
  ⟨"<https://canvas.test/api/v1/folders?page=3>; rel=\"last\"", 1⟩

/-- A schedule in which the three page jobs finish out of order. -/
def c1evs : List Ev :=
  [.deliver 2, .deliver 0, .deliver 1, .deliver 2, .deliver 0, .deliver 1,
   .jobDone 2, .jobDone 0, .jobDone 1, .close, .recvClosed]

def c1final : EngSt Nat Unit (Coll Nat Unit) :=
  { jobs := [[], [], []]
    done := [true, true, true]
    closed := true
    cons := Coll.retOk [6, 2, 4, 7, 3, 5]
    log := [(2, Msg.obj (some 6)), (0, Msg.obj (some 2)),
            (1, Msg.obj (some 4)), (2, Msg.obj (some 7)),
            (0, Msg.obj (some 3)), (1, Msg.obj (some 5))] }

def c2t : Nat → Except Nat (HttpResp Nat) := fun p =>
  match p with
  | 2 => .error 42
  | _ => .ok ⟨"<https://canvas.test/api/v1/files?page=3>; rel=\"last\"", p⟩

def c2decode : Nat → Nat → Except Nat (List (Option Nat)) := fun p _ =>
  match p with
  | 1 => .ok [some 10, some 11]
  | 3 => .error 7
  | _ => .ok []

def c2r : HttpResp Nat :=
  ⟨"<https://canvas.test/api/v1/files?page=3>; rel=\"last\"", 1⟩

def c2evs : List Ev :=
  [.deliver 1, .deliver 0, .deliver 2, .deliver 0,
   .jobDone 1, .jobDone 0, .jobDone 2, .close]

def c2final : EngSt Nat Nat Unit :=
  { jobs := [[], [], []]
    done := [true, true, true]
    closed := true
    cons := ()
    log := [(1, Msg.err 42), (0, Msg.obj (some 10)), (2, Msg.err 7),
            (0, Msg.obj (some 11))] }

def c6t : Nat → Except Nat (HttpResp Nat) := fun p =>
  match p with
  | 2 => .error 5
  | _ => .ok ⟨"<https://canvas.test/api/v1/files?page=2>; rel=\"last\"", p⟩

def c6decode : Nat → Nat → Except Nat (List (Option Nat)) := fun _ _ =>
  .ok [some 1]

def c6r : HttpResp Nat :=
  ⟨"<https://canvas.test/api/v1/files?page=2>; rel=\"last\"", 1⟩

def c6final : EngSt Nat Nat (Coll Nat Nat) :=
  { jobs := [[Msg.obj (some 1)], []]
    done := [false, true]
    closed := false
    cons := Coll.retErr 5
    log := [(1, Msg.err 5)] }

def c3t : Nat → Except Unit (HttpResp Nat) := fun p =>
  .ok ⟨"<https://canvas.test/api/v1/files?page=2>; rel=\"last\"", p⟩

def c3decode : Nat → Nat → Except Unit (List (Option Nat)) := fun p _ =>
  match p with
  | 1 => .error ()
  | _ => .ok [some 7]

def c3r : HttpResp Nat :=
  ⟨"<https://canvas.test/api/v1/files?page=2>; rel=\"last\"", 1⟩

def c3evs : List Ev := [.deliver 0, .jobDone 0]

def c3final : EngSt Nat Unit (Coll Nat Unit) :=
  { jobs := [[], [Msg.obj (some 7)]]
    done := [true, false]
    closed := false
    cons := Coll.retErr ()
    log := [(0, Msg.err ())] }

def c3djobs : List (List (Msg Nat Unit)) :=
  [[Msg.obj (some 1)], [Msg.obj (some 2)]]

def c3devs : List Ev :=
  [.deliver 0, .deliver 1, .jobDone 0, .jobDone 1, .close]

def c3dl1 : List Ev := [.deliver 0, .deliver 1, .jobDone 0, .jobDone 1]

def c3dfinal : EngSt Nat Unit Unit :=
  { jobs := [[], []]
    done := [true, true]
    closed := true
    cons := ()
    log := [(0, Msg.obj (some 1)), (1, Msg.obj (some 2))] }

def c8jobs : List (List (Msg Nat Nat)) :=
  [[Msg.err 3, Msg.obj (some 9)]]

def c8s1 : EngSt Nat Nat (AdSt Nat) :=
  { jobs := [[Msg.obj (some 9)]]
    done := [false]
    closed := false
    cons := AdSt.running true []
    log := [(0, Msg.err 3)] }

def c8mid : EngSt Nat Nat (AdSt Nat) :=
  { jobs := [[Msg.obj (some 9)]]
    done := [false]
    closed := false
    cons := AdSt.finished []
    log := [(0, Msg.err 3)] }

def c9jobs : List (List (Msg Nat Nat)) :=
  [[Msg.obj (some 4), Msg.obj none], [Msg.err 8]]

def c9s1 : EngSt Nat Nat (Coll Nat Nat) :=
  { jobs := [[Msg.obj none], [Msg.err 8]]
    done := [false, false]
    closed := false
    cons := Coll.running [4]
    log := [(0, Msg.obj (some 4))] }

def c9s2 : EngSt Nat Nat (Coll Nat Nat) :=
  { jobs := [[], [Msg.err 8]]
    done := [false, false]
    closed := false
    cons := Coll.retOk [4]
    log := [(0, Msg.obj (some 4)), (0, Msg.obj none)] }

def c9final : EngSt Nat Nat (Coll Nat Nat) :=
  { jobs := [[], [Msg.err 8]]
    done := [true, false]
    closed := false
    cons := Coll.retOk [4]
    log := [(0, Msg.obj (some 4)), (0, Msg.obj none)] }

/- ===================================================================
   §15  The synchronous error path of channel; claims C4 and C5
   =================================================================== -/

/-- A goroutine of the first-request error path, as its remaining channel
operations: blocked sending on the unbuffered p.errs, about to close
p.errs, about to close p.objects, sitting in collect's receive loop, or
returned. -/
inductive FP (ε : Type)
  | sendErr (e : EngErr ε) (k : FP ε)
  | closeErrsOp (k : FP ε)
  | closeObjsOp (k : FP ε)
  | collectLoop
  | returned
deriving DecidableEq

structure FPSys (ε : Type) where
  procs : List (FP ε)
  errsClosed : Bool
  objsClosed : Bool
  delivered : List (EngErr ε)
deriving DecidableEq

/-- Goroutine i acts alone (a close), or sender i rendezvouses with
receiver j. -/
inductive FPEv
  | solo (i : Nat)
  | comm (i j : Nat)
deriving DecidableEq

/-- Only a goroutine inside collect's select loop is receiving on the
error channel. -/
def fpRecvReady : FP ε → Bool
  | .collectLoop => true
  | _ => false

/-- Unbuffered-channel semantics: a send on p.errs completes only together
with a receive by a different goroutine; closes are solo steps. A closed
channel is not closed again (Go would panic). -/
def fpStep (s : FPSys ε) : FPEv → Option (FPSys ε)
  | .solo i =>
    match s.procs[i]? with
    | some (.closeErrsOp k) =>
      if s.errsClosed then none
      else some { s with procs := s.procs.set i k, errsClosed := true }
    | some (.closeObjsOp k) =>
      if s.objsClosed then none
      else some { s with procs := s.procs.set i k, objsClosed := true }
    | _ => none
  | .comm i j =>
    if i = j then none
    else
      match s.procs[i]?, s.procs[j]? with
      | some (.sendErr e k), some p =>
        if fpRecvReady p then
          some { s with
            procs := (s.procs.set i k).set j .returned
            delivered := s.delivered ++ [e] }
        else none
      | _, _ => none

def fpExec (s : FPSys ε) : List FPEv → Option (FPSys ε)
  | [] => some s
  | ev :: evs =>
    match fpStep s ev with
    | some s1 => fpExec s1 evs
    | none => none

/-- The caller goroutine after firstReq fails inside channel: send the
error on the unbuffered error channel, close both channels, return nil and
fall into collect's receive loop. No page job was spawned, so it is the
only goroutine of the system. -/
def errPathProc (e : EngErr ε) : FP ε :=
  .sendErr e (.closeErrsOp (.closeObjsOp .collectLoop))

def errPathSys (e : EngErr ε) : FPSys ε :=
  { procs := [errPathProc e]
    errsClosed := false
    objsClosed := false
    delivered := [] }

def c5t : Nat → Except Unit (HttpResp Nat) := fun _ => .error ()

def c4t : Nat → Except Unit (HttpResp Nat) := fun _ =>
  .ok ⟨"<https://example.com/api/v1/folders?page=3>; rel=\"next\"", 0⟩

def c10h : String :=
  "<https://canvas.test/a?page=2>; rel=\"prev\"<https://canvas.test/b>; rel=\"last\""

/- ===================================================================
   Theorems
   =================================================================== -/

theorem dropLit_length {lit s r : List Char} (h : dropLit lit s = some r) :
    s.length = lit.length + r.length := by
  induction lit generalizing s with
  | nil => simp [dropLit] at h; simp [h]
  | cons l lt ih =>
    cases s with
    | nil => simp [dropLit] at h
    | cons c ct =>
      by_cases hc : c = l
      · simp [dropLit, hc] at h
        have := ih h
        simp [List.length_cons, this]
        omega
      · simp [dropLit, hc] at h

theorem scanTo_length {stop s : List Char} {g r : List Char}
    (h : scanTo stop s = some (g, r)) :
    s.length = g.length + stop.length + r.length := by
  induction s generalizing g with
  | nil =>
    cases hd : dropLit stop ([] : List Char) with
    | none => simp [scanTo, hd] at h
    | some r0 =>
      simp [scanTo, hd] at h
      obtain ⟨hg, hr⟩ := h
      subst hg; subst hr
      have := dropLit_length hd
      simp only [List.length_nil] at this ⊢
      omega
  | cons c ct ih =>
    cases hd : dropLit stop (c :: ct) with
    | some r0 =>
      simp [scanTo, hd] at h
      obtain ⟨hg, hr⟩ := h
      subst hg; subst hr
      have := dropLit_length hd
      simp only [List.length_cons, List.length_nil] at this ⊢
      omega
    | none =>
      by_cases hc : c = '\n'
      · simp only [scanTo, hd] at h
        rw [if_pos hc] at h
        cases h
      · cases hrec : scanTo stop ct with
        | none => simp [scanTo, hd, hc, hrec] at h
        | some gr =>
          obtain ⟨g0, r0⟩ := gr
          simp [scanTo, hd, hc, hrec] at h
          obtain ⟨hg, hr⟩ := h
          subst hg; subst hr
          have := ih hrec
          simp only [List.length_cons] at this ⊢
          omega

theorem matchAt_rest_lt {s : List Char} {m : String × String}
    {rest : List Char} (h : matchAt s = some (m, rest)) :
    rest.length < s.length := by
  cases hd : dropLit ['<'] s with
  | none => simp [matchAt, hd] at h
  | some s1 =>
    cases h1 : scanTo relLit s1 with
    | none => simp [matchAt, hd, h1] at h
    | some gr1 =>
      obtain ⟨g1, r1⟩ := gr1
      cases h2 : scanTo ['"'] r1 with
      | none => simp [matchAt, hd, h1, h2] at h
      | some gr2 =>
        obtain ⟨g2, r2⟩ := gr2
        simp [matchAt, hd, h1, h2] at h
        obtain ⟨hm, hrest⟩ := h
        subst hrest
        have e0 := dropLit_length hd
        have e1 := scanTo_length h1
        have e2 := scanTo_length h2
        simp only [relLit, List.length_cons, List.length_nil,
          List.length_singleton] at e0 e1 e2
        omega

theorem findLinksGo_nil (f : Nat) : findLinksGo f [] = [] := by
  cases f <;> simp [findLinksGo]

theorem findLinksGo_fuel_aux :
    ∀ n (s : List Char), s.length ≤ n →
      ∀ f1 f2, s.length ≤ f1 → s.length ≤ f2 →
        findLinksGo f1 s = findLinksGo f2 s := by
  intro n
  induction n with
  | zero =>
    intro s hs f1 f2 _ _
    have : s = [] := List.length_eq_zero.mp (Nat.le_zero.mp hs)
    subst this
    rw [findLinksGo_nil, findLinksGo_nil]
  | succ n ih =>
    intro s hs f1 f2 h1 h2
    cases s with
    | nil => rw [findLinksGo_nil, findLinksGo_nil]
    | cons c ct =>
      simp only [List.length_cons] at hs h1 h2
      cases f1 with
      | zero => omega
      | succ a =>
        cases f2 with
        | zero => omega
        | succ b =>
          simp only [findLinksGo]
          cases hm : matchAt (c :: ct) with
          | some mr =>
            obtain ⟨m, rest⟩ := mr
            have hlt := matchAt_rest_lt hm
            simp only [List.length_cons] at hlt
            simp only [ih rest (by omega) a b (by omega) (by omega)]
          | none =>
            simp only [ih ct (by omega) a b (by omega) (by omega)]

/-- The fuel in findLinksGo is immaterial once it reaches the input length:
the scanner is a faithful model of FindAllStringSubmatch, not a truncation. -/
theorem findLinksGo_fuel {s : List Char} {f1 f2 : Nat}
    (h1 : s.length ≤ f1) (h2 : s.length ≤ f2) :
    findLinksGo f1 s = findLinksGo f2 s :=
  findLinksGo_fuel_aux s.length s (Nat.le_refl _) f1 f2 h1 h2

example :
    findLinks "<https://canvas.test/api/v1/folders?page=3>; rel=\"last\"" =
      [("https://canvas.test/api/v1/folders?page=3", "last")] := by decide

example : parseInt32 "3" = some 3 := by decide
example : parseInt32 "" = none := by decide
example : parseInt32 "x7" = none := by decide
example : queryGet "https://c/f?page=12&per_page=10" "page" = "12" := by decide
example : queryGet "https://c/f" "page" = "" := by decide
example :
    newLinkedResource "<https://c/a?page=2>; rel=\"prev\"<https://c/b>; rel=\"last\"" =
      ([("prev", some ⟨"https://c/a?page=2", 2⟩), ("last", none)],
        some (ParseErr.pageNum "")) := by decide

theorem stuck_of_canStep {C : Consumer α ε σ} {s : EngSt α ε σ}
    (h : canStep C s = false) : ∀ ev, step C s ev = none := by
  unfold canStep at h
  rw [Bool.or_eq_false_iff, Bool.or_eq_false_iff, Bool.or_eq_false_iff] at h
  obtain ⟨⟨⟨hjobs, hclose⟩, hrecv⟩, hint⟩ := h
  rw [List.any_eq_false] at hjobs
  intro ev
  cases ev with
  | deliver i =>
    cases hj : s.jobs[i]? with
    | none => simp [step, hj]
    | some l =>
      cases l with
      | nil => simp [step, hj]
      | cons m rest =>
        have hi : i ∈ List.range s.jobs.length := by
          rw [List.mem_range]
          by_contra hlt
          push_neg at hlt
          rw [List.getElem?_eq_none hlt] at hj
          cases hj
        have hx := hjobs i hi
        rw [hj] at hx
        cases hr : C.recvMsg s.cons m with
        | some c1 => simp [hr] at hx
        | none => simp [step, hj, hr]
  | jobDone i =>
    cases hj : s.jobs[i]? with
    | none => simp [step, hj]
    | some l =>
      cases l with
      | cons m rest => simp [step, hj]
      | nil =>
        have hi : i ∈ List.range s.jobs.length := by
          rw [List.mem_range]
          by_contra hlt
          push_neg at hlt
          rw [List.getElem?_eq_none hlt] at hj
          cases hj
        have hx := hjobs i hi
        rw [hj] at hx
        cases hd : s.done[i]? with
        | none => simp [step, hj, hd]
        | some b =>
          cases b with
          | true => simp [step, hj, hd]
          | false => simp [hd] at hx
  | close =>
    cases hc : s.closed with
    | true => simp [step, hc]
    | false =>
      rw [hc] at hclose
      simp only [Bool.not_false, Bool.true_and] at hclose
      simp [step, hc, hclose]
  | recvClosed =>
    cases hc : s.closed with
    | false => simp [step, hc]
    | true =>
      rw [hc] at hrecv
      simp only [Bool.true_and] at hrecv
      cases hr : C.recvClosed s.cons with
      | none => simp [step, hc, hr]
      | some c1 => rw [hr] at hrecv; simp at hrecv
  | internal =>
    cases hr : C.internal s.cons with
    | none => simp [step, hr]
    | some c1 => rw [hr] at hint; simp at hint

theorem exec_append (C : Consumer α ε σ) (s : EngSt α ε σ)
    (l1 l2 : List Ev) :
    exec C s (l1 ++ l2) =
      match exec C s l1 with
      | some s1 => exec C s1 l2
      | none => none := by
  induction l1 generalizing s with
  | nil => simp [exec]
  | cons ev t ih =>
    simp only [List.cons_append, exec]
    cases step C s ev with
    | none => rfl
    | some s1 => exact ih s1

/-- Invariance transfer along a run. -/
theorem exec_inv {C : Consumer α ε σ} (P : EngSt α ε σ → Prop)
    (hstep : ∀ s ev s1, P s → step C s ev = some s1 → P s1) :
    ∀ evs s s1, P s → exec C s evs = some s1 → P s1 := by
  intro evs
  induction evs with
  | nil =>
    intro s s1 hP h
    simp [exec] at h
    exact h ▸ hP
  | cons ev t ih =>
    intro s s1 hP h
    simp only [exec] at h
    cases hs : step C s ev with
    | none => rw [hs] at h; cases h
    | some s2 =>
      rw [hs] at h
      exact ih s2 s1 (hstep s ev s2 hP hs) h

/- ===================================================================
   §6  Step characterizations and basic run lemmas
   =================================================================== -/

theorem step_deliver {C : Consumer α ε σ} {s s1 : EngSt α ε σ} {i : Nat}
    (h : step C s (Ev.deliver i) = some s1) :
    ∃ m rest c1, s.jobs[i]? = some (m :: rest) ∧
      C.recvMsg s.cons m = some c1 ∧
      s1 = { s with
        jobs := s.jobs.set i rest
        cons := c1
        log := s.log ++ [(i, m)] } := by
  cases hj : s.jobs[i]? with
  | none => simp [step, hj] at h
  | some l =>
    cases l with
    | nil => simp [step, hj] at h
    | cons m rest =>
      cases hr : C.recvMsg s.cons m with
      | none => simp [step, hj, hr] at h
      | some c1 =>
        simp only [step, hj, hr] at h
        cases h
        exact ⟨m, rest, c1, rfl, hr, rfl⟩

theorem step_jobDone {C : Consumer α ε σ} {s s1 : EngSt α ε σ} {i : Nat}
    (h : step C s (Ev.jobDone i) = some s1) :
    s.jobs[i]? = some [] ∧ s.done[i]? = some false ∧
      s1 = { s with done := s.done.set i true } := by
  cases hj : s.jobs[i]? with
  | none => simp [step, hj] at h
  | some l =>
    cases l with
    | cons m rest => simp [step, hj] at h
    | nil =>
      cases hd : s.done[i]? with
      | none => simp [step, hj, hd] at h
      | some b =>
        cases b with
        | true => simp [step, hj, hd] at h
        | false =>
          simp only [step, hj, hd] at h
          cases h
          exact ⟨rfl, rfl, rfl⟩

theorem step_close {C : Consumer α ε σ} {s s1 : EngSt α ε σ}
    (h : step C s Ev.close = some s1) :
    s.closed = false ∧ s.done.all (fun b => b) = true ∧
      s1 = { s with closed := true } := by
  cases hc : s.closed with
  | true => simp [step, hc] at h
  | false =>
    cases ha : s.done.all (fun b => b) with
    | false => simp [step, hc, ha] at h
    | true =>
      simp only [step, hc, ha] at h
      simp at h
      exact ⟨rfl, rfl, h.symm⟩

theorem step_recvClosed {C : Consumer α ε σ} {s s1 : EngSt α ε σ}
    (h : step C s Ev.recvClosed = some s1) :
    ∃ c1, s.closed = true ∧ C.recvClosed s.cons = some c1 ∧
      s1 = { s with cons := c1 } := by
  cases hc : s.closed with
  | false => simp [step, hc] at h
  | true =>
    cases hr : C.recvClosed s.cons with
    | none => simp [step, hc, hr] at h
    | some c1 =>
      simp only [step, hc, hr] at h
      cases h
      exact ⟨c1, rfl, rfl, rfl⟩

theorem step_internal {C : Consumer α ε σ} {s s1 : EngSt α ε σ}
    (h : step C s Ev.internal = some s1) :
    ∃ c1, C.internal s.cons = some c1 ∧ s1 = { s with cons := c1 } := by
  cases hr : C.internal s.cons with
  | none => simp [step, hr] at h
  | some c1 =>
    simp only [step, hr] at h
    cases h
    exact ⟨c1, rfl, rfl⟩

theorem step_closed_mono {C : Consumer α ε σ} {s s1 : EngSt α ε σ} {ev : Ev}
    (h : step C s ev = some s1) (hc : s.closed = true) : s1.closed = true := by
  cases ev with
  | deliver i => obtain ⟨_, _, _, _, _, h1⟩ := step_deliver h; rw [h1]; exact hc
  | jobDone i => obtain ⟨_, _, h1⟩ := step_jobDone h; rw [h1]; exact hc
  | close => obtain ⟨h0, _, _⟩ := step_close h; rw [hc] at h0; cases h0
  | recvClosed => obtain ⟨_, _, _, h1⟩ := step_recvClosed h; rw [h1]; exact hc
  | internal => obtain ⟨_, _, h1⟩ := step_internal h; rw [h1]; exact hc

theorem exec_closed_mono {C : Consumer α ε σ} {s s1 : EngSt α ε σ}
    {evs : List Ev} (h : exec C s evs = some s1) (hc : s.closed = true) :
    s1.closed = true := by
  induction evs generalizing s with
  | nil => simp [exec] at h; exact h ▸ hc
  | cons ev t ih =>
    simp only [exec] at h
    cases hs : step C s ev with
    | none => rw [hs] at h; cases h
    | some s2 =>
      rw [hs] at h
      exact ih h (step_closed_mono hs hc)

/-- The channels are closed by at most one step of any run, and a run
starting with them already closed never closes them again. -/
theorem close_count {C : Consumer α ε σ} :
    ∀ (evs : List Ev) (s s1 : EngSt α ε σ), exec C s evs = some s1 →
      (s.closed = true → evs.count Ev.close = 0) ∧ evs.count Ev.close ≤ 1 := by
  intro evs
  induction evs with
  | nil => intro s s1 _; simp
  | cons ev t ih =>
    intro s s1 h
    simp only [exec] at h
    cases hs : step C s ev with
    | none => rw [hs] at h; cases h
    | some s2 =>
      rw [hs] at h
      have iht := ih s2 s1 h
      by_cases hev : ev = Ev.close
      · subst hev
        obtain ⟨h0, _, _⟩ := step_close hs
        have hclosed2 : s2.closed = true := by
          obtain ⟨_, _, h1⟩ := step_close hs
          rw [h1]
        constructor
        · intro hcl; rw [hcl] at h0; cases h0
        · simp [List.count_cons, iht.1 hclosed2]
      · have hbe : (ev == Ev.close) = false := beq_eq_false_iff_ne.mpr hev
        constructor
        · intro hcl
          have hcm := step_closed_mono hs hcl
          simp [List.count_cons, hbe, iht.1 hcm]
        · simp only [List.count_cons, hbe, Bool.false_eq_true, if_false,
            Nat.add_zero]
          exact iht.2

/-- A done flag only turns true through that job's jobDone step. -/
theorem done_origin {C : Consumer α ε σ} {i : Nat} :
    ∀ (evs : List Ev) (s s1 : EngSt α ε σ), exec C s evs = some s1 →
      s1.done[i]? = some true →
      s.done[i]? = some true ∨ Ev.jobDone i ∈ evs := by
  intro evs
  induction evs with
  | nil =>
    intro s s1 h hd
    simp [exec] at h
    exact Or.inl (h ▸ hd)
  | cons ev t ih =>
    intro s s1 h hd
    simp only [exec] at h
    cases hs : step C s ev with
    | none => rw [hs] at h; cases h
    | some s2 =>
      rw [hs] at h
      cases ih s2 s1 h hd with
      | inr hmem => exact Or.inr (List.mem_cons_of_mem _ hmem)
      | inl hd2 =>
        cases ev with
        | jobDone j =>
          by_cases hij : j = i
          · exact Or.inr (hij ▸ List.mem_cons_self _ _)
          · obtain ⟨_, _, h1⟩ := step_jobDone hs
            rw [h1] at hd2
            simp only at hd2
            rw [List.getElem?_set_ne hij] at hd2
            exact Or.inl hd2
        | deliver j =>
          obtain ⟨_, _, _, _, _, h1⟩ := step_deliver hs
          rw [h1] at hd2
          exact Or.inl hd2
        | close =>
          obtain ⟨_, _, h1⟩ := step_close hs
          rw [h1] at hd2
          exact Or.inl hd2
        | recvClosed =>
          obtain ⟨_, _, _, h1⟩ := step_recvClosed hs
          rw [h1] at hd2
          exact Or.inl hd2
        | internal =>
          obtain ⟨_, _, h1⟩ := step_internal hs
          rw [h1] at hd2
          exact Or.inl hd2

/-- The closed flag only turns true through a close step. -/
theorem closed_origin {C : Consumer α ε σ} :
    ∀ (evs : List Ev) (s s1 : EngSt α ε σ), exec C s evs = some s1 →
      s1.closed = true → s.closed = true ∨ Ev.close ∈ evs := by
  intro evs
  induction evs with
  | nil =>
    intro s s1 h hc
    simp [exec] at h
    exact Or.inl (h ▸ hc)
  | cons ev t ih =>
    intro s s1 h hc
    simp only [exec] at h
    cases hs : step C s ev with
    | none => rw [hs] at h; cases h
    | some s2 =>
      rw [hs] at h
      cases ih s2 s1 h hc with
      | inr hmem => exact Or.inr (List.mem_cons_of_mem _ hmem)
      | inl hc2 =>
        cases ev with
        | close => exact Or.inr (List.mem_cons_self _ _)
        | deliver j =>
          obtain ⟨_, _, _, _, _, h1⟩ := step_deliver hs
          rw [h1] at hc2
          exact Or.inl hc2
        | jobDone j =>
          obtain ⟨_, _, h1⟩ := step_jobDone hs
          rw [h1] at hc2
          exact Or.inl hc2
        | recvClosed =>
          obtain ⟨_, _, _, h1⟩ := step_recvClosed hs
          rw [h1] at hc2
          exact Or.inl hc2
        | internal =>
          obtain ⟨_, _, h1⟩ := step_internal hs
          rw [h1] at hc2
          exact Or.inl hc2

theorem deliveredOf_append (log : List (Nat × Msg α ε)) (i j : Nat)
    (m : Msg α ε) :
    deliveredOf (log ++ [(j, m)]) i =
      deliveredOf log i ++ (if j = i then [m] else []) := by
  by_cases hij : j = i <;>
    simp [deliveredOf, List.filter_append, hij]

theorem WF_init (jobs0 : List (List (Msg α ε))) (c0 : σ) :
    WF jobs0 (initSt jobs0 c0) := by
  constructor
  · simp [initSt]
  · simp [initSt]
  · intro i h
    simp only [initSt] at h
    rcases Nat.lt_or_ge i jobs0.length with hlt | hge
    · rw [List.getElem?_replicate_of_lt hlt] at h
      cases h
    · rw [List.getElem?_eq_none (by simpa using hge)] at h
      cases h
  · intro h
    simp [initSt] at h
  · intro p hp
    simp [initSt] at hp
  · intro i l l0 hl hl0
    simp only [initSt] at hl
    rw [hl] at hl0
    cases hl0
    simp [initSt, deliveredOf]

theorem WF_step {C : Consumer α ε σ} {jobs0 : List (List (Msg α ε))}
    {s s1 : EngSt α ε σ} {ev : Ev} (hW : WF jobs0 s)
    (h : step C s ev = some s1) : WF jobs0 s1 := by
  cases ev with
  | deliver i =>
    obtain ⟨m, rest, c1, hj, hr, h1⟩ := step_deliver h
    subst h1
    have hilt : i < s.jobs.length := by
      by_contra hge
      push_neg at hge
      rw [List.getElem?_eq_none hge] at hj
      cases hj
    constructor
    · simp [hW.doneLen]
    · simp [hW.jobsLen]
    · intro j hdj
      simp only at hdj ⊢
      have hje := hW.doneEmpty j hdj
      have hne : i ≠ j := by
        intro hh
        rw [hh] at hj
        rw [hje] at hj
        cases hj
      rw [List.getElem?_set_ne hne]
      exact hje
    · intro hc j hjlt
      simp only at hc hjlt ⊢
      exact hW.closedDone hc j (by simpa using hjlt)
    · intro p hp
      simp only [List.mem_append] at hp
      cases hp with
      | inl hp => exact hW.logIdx p hp
      | inr hp =>
        simp only [List.mem_singleton] at hp
        subst hp
        simpa [hW.jobsLen] using hilt
    · intro j l l0 hl hl0
      simp only at hl ⊢
      rw [deliveredOf_append]
      by_cases hij : i = j
      · subst hij
        rw [List.getElem?_set_eq hilt] at hl
        cases hl
        have := hW.logJobs i (m :: rest) l0 hj hl0
        simp only [if_pos rfl]
        rw [List.append_assoc]
        simpa using this
      · rw [List.getElem?_set_ne hij] at hl
        have := hW.logJobs j l l0 hl hl0
        simp [hij, this]
  | jobDone i =>
    obtain ⟨hj, hd, h1⟩ := step_jobDone h
    subst h1
    constructor
    · simp [hW.doneLen]
    · exact hW.jobsLen
    · intro j hdj
      simp only at hdj
      by_cases hij : i = j
      · subst hij; exact hj
      · rw [List.getElem?_set_ne hij] at hdj
        exact hW.doneEmpty j hdj
    · intro hc j hjlt
      simp only at hc hjlt ⊢
      by_cases hij : i = j
      · subst hij
        have : i < s.done.length := by simpa using hjlt
        rw [List.getElem?_set_eq this]
      · rw [List.getElem?_set_ne hij]
        exact hW.closedDone hc j (by simpa using hjlt)
    · exact hW.logIdx
    · exact hW.logJobs
  | close =>
    obtain ⟨hc, ha, h1⟩ := step_close h
    subst h1
    constructor
    · exact hW.doneLen
    · exact hW.jobsLen
    · exact hW.doneEmpty
    · intro _ j hjlt
      simp only at hjlt
      cases hdj : s.done[j]? with
      | none =>
        rw [List.getElem?_eq_none_iff] at hdj
        omega
      | some b =>
        cases b with
        | true => rfl
        | false =>
          have hbm : false ∈ s.done := List.getElem?_mem hdj
          have := List.all_eq_true.mp ha false hbm
          cases this
    · exact hW.logIdx
    · exact hW.logJobs
  | recvClosed =>
    obtain ⟨c1, hc, hr, h1⟩ := step_recvClosed h
    subst h1
    exact ⟨hW.doneLen, hW.jobsLen, hW.doneEmpty, hW.closedDone,
      hW.logIdx, hW.logJobs⟩
  | internal =>
    obtain ⟨c1, hr, h1⟩ := step_internal h
    subst h1
    exact ⟨hW.doneLen, hW.jobsLen, hW.doneEmpty, hW.closedDone,
      hW.logIdx, hW.logJobs⟩

theorem WF_exec {C : Consumer α ε σ} {jobs0 : List (List (Msg α ε))}
    {s s1 : EngSt α ε σ} {evs : List Ev} (hW : WF jobs0 s)
    (h : exec C s evs = some s1) : WF jobs0 s1 :=
  exec_inv (WF jobs0) (fun _ _ _ hP hs => WF_step hP hs) evs s s1 hW h

theorem errsOf_append (l1 l2 : List (Nat × Msg α ε)) :
    errsOf (l1 ++ l2) = errsOf l1 ++ errsOf l2 :=
  List.filterMap_append l1 l2 _

theorem objsOf_append (l1 l2 : List (Nat × Msg α ε)) :
    objsOf (l1 ++ l2) = objsOf l1 ++ objsOf l2 :=
  List.filterMap_append l1 l2 _

theorem CInv_init (jobs0 : List (List (Msg α ε))) :
    CInv (initSt jobs0 (Coll.running [])) := by
  refine ⟨?_, ?_, ?_⟩ <;> simp [initSt, errsOf, objsOf, NilFree, CInv]

theorem CInv_step {s s1 : EngSt α ε (Coll α ε)} {ev : Ev}
    (hI : CInv s) (h : step (collectCons α ε) s ev = some s1) : CInv s1 := by
  cases ev with
  | deliver i =>
    obtain ⟨m, rest, c1, hj, hr, h1⟩ := step_deliver h
    subst h1
    cases hc : s.cons with
    | retOk acc => rw [hc] at hr; simp [collectCons] at hr
    | retErr e => rw [hc] at hr; simp [collectCons] at hr
    | running acc =>
      rw [hc] at hr
      simp only [CInv, hc] at hI
      obtain ⟨hE, hN, hA⟩ := hI
      cases m with
      | err e =>
        simp only [collectCons] at hr
        cases hr
        simp only [CInv, errsOf_append, hE]
        simp [errsOf]
      | obj o =>
        cases o with
        | none =>
          simp only [collectCons] at hr
          cases hr
          simp only [CInv, errsOf_append, hE]
          constructor
          · simp [errsOf]
          · exact Or.inr ⟨s.log, i, rfl, hN, hA⟩
        | some o =>
          simp only [collectCons] at hr
          cases hr
          simp only [CInv, errsOf_append, objsOf_append, hE]
          refine ⟨by simp [errsOf], ?_, ?_⟩
          · intro p hp
            simp only [List.mem_append, List.mem_singleton] at hp
            cases hp with
            | inl hp => exact hN p hp
            | inr hp => subst hp; simp
          · simp [objsOf, hA]
  | jobDone i =>
    obtain ⟨hj, hd, h1⟩ := step_jobDone h
    subst h1
    cases hc : s.cons with
    | running acc => simp only [CInv, hc] at hI ⊢; exact hI
    | retErr e => simp only [CInv, hc] at hI ⊢; exact hI
    | retOk acc => simp only [CInv, hc] at hI ⊢; exact hI
  | close =>
    obtain ⟨hcl, ha, h1⟩ := step_close h
    subst h1
    cases hc : s.cons with
    | running acc => simp only [CInv, hc] at hI ⊢; exact hI
    | retErr e => simp only [CInv, hc] at hI ⊢; exact hI
    | retOk acc =>
      simp only [CInv, hc] at hI ⊢
      obtain ⟨hE, hD⟩ := hI
      refine ⟨hE, ?_⟩
      cases hD with
      | inl hD => exact Or.inl ⟨hD.1, hD.2.1, by trivial⟩
      | inr hD => exact Or.inr hD
  | recvClosed =>
    obtain ⟨c1, hcl, hr, h1⟩ := step_recvClosed h
    subst h1
    cases hc : s.cons with
    | retOk acc => rw [hc] at hr; simp [collectCons] at hr
    | retErr e => rw [hc] at hr; simp [collectCons] at hr
    | running acc =>
      rw [hc] at hr
      simp only [CInv, hc] at hI
      simp only [collectCons] at hr
      cases hr
      obtain ⟨hE, hN, hA⟩ := hI
      simp only [CInv]
      exact ⟨hE, Or.inl ⟨hN, hA, hcl⟩⟩
  | internal =>
    obtain ⟨c1, hr, h1⟩ := step_internal h
    simp [collectCons] at hr

theorem CInv_exec {s s1 : EngSt α ε (Coll α ε)} {evs : List Ev}
    (hI : CInv s) (h : exec (collectCons α ε) s evs = some s1) : CInv s1 :=
  exec_inv CInv (fun _ _ _ hP hs => CInv_step hP hs) evs s s1 hI h

/- ===================================================================
   §9  Counting lemmas for the delivered log
   =================================================================== -/

theorem deliveredOf_cons (p : Nat × Msg α ε) (log : List (Nat × Msg α ε))
    (i : Nat) :
    deliveredOf (p :: log) i =
      (if p.1 = i then [p.2] else []) ++ deliveredOf log i := by
  by_cases h : p.1 = i <;> simp [deliveredOf, List.filter_cons, h]

/-- Every delivery belongs to exactly one job, so the log's length is the
sum of the per-job delivery counts. -/
theorem log_length_partition (N : Nat) :
    ∀ (log : List (Nat × Msg α ε)), (∀ p ∈ log, p.1 < N) →
      log.length =
        Finset.sum (Finset.range N) (fun i => (deliveredOf log i).length) := by
  intro log
  induction log with
  | nil => intro _; simp [deliveredOf]
  | cons p t ih =>
    intro h
    have hp : p.1 < N := h p (List.mem_cons_self _ _)
    have ht := ih (fun q hq => h q (List.mem_cons_of_mem _ hq))
    have hsum : Finset.sum (Finset.range N)
        (fun i => (deliveredOf (p :: t) i).length)
        = Finset.sum (Finset.range N)
            (fun i => (if p.1 = i then 1 else 0) + (deliveredOf t i).length) := by
      apply Finset.sum_congr rfl
      intro i _
      rw [deliveredOf_cons]
      by_cases hh : p.1 = i <;> simp [hh] <;> omega
    rw [hsum, Finset.sum_add_distrib]
    have hone : Finset.sum (Finset.range N)
        (fun i => if p.1 = i then 1 else 0) = 1 := by
      rw [Finset.sum_ite_eq]
      simp [Finset.mem_range, hp]
    rw [hone, ← ht]
    simp [Nat.add_comm]

theorem objsOf_length (log : List (Nat × Msg α ε))
    (h : ∀ p ∈ log, ∃ o : α, p.2 = Msg.obj (some o)) :
    (objsOf log).length = log.length := by
  induction log with
  | nil => simp [objsOf]
  | cons p t ih =>
    obtain ⟨o, ho⟩ := h p (List.mem_cons_self _ _)
    have := ih (fun q hq => h q (List.mem_cons_of_mem _ hq))
    simp [objsOf, List.filterMap_cons, ho] at this ⊢
    exact this

theorem mem_deliveredOf {log : List (Nat × Msg α ε)} {p : Nat × Msg α ε}
    (hp : p ∈ log) : p.2 ∈ deliveredOf log p.1 := by
  have : p ∈ log.filter (fun q => q.1 == p.1) :=
    List.mem_filter.mpr ⟨hp, by simp⟩
  exact List.mem_map_of_mem Prod.snd this

/-- Every logged message is a message of its job's list. -/
theorem log_msg_source {jobs0 : List (List (Msg α ε))}
    {s : EngSt α ε σ} (hW : WF jobs0 s) :
    ∀ p ∈ s.log, ∃ l0, jobs0[p.1]? = some l0 ∧ p.2 ∈ l0 := by
  intro p hp
  have hidx := hW.logIdx p hp
  have hjlt : p.1 < s.jobs.length := by rw [hW.jobsLen]; exact hidx
  have hj : s.jobs[p.1]? = some (s.jobs[p.1]) := List.getElem?_eq_getElem hjlt
  have hj0 : jobs0[p.1]? = some (jobs0[p.1]) := List.getElem?_eq_getElem hidx
  refine ⟨jobs0[p.1], hj0, ?_⟩
  have heq := hW.logJobs p.1 _ _ hj hj0
  rw [← heq]
  exact List.mem_append_left _ (mem_deliveredOf hp)

/-- Every pending message of a job is a message of that job's list. -/
theorem pending_msg_source {jobs0 : List (List (Msg α ε))}
    {s : EngSt α ε σ} (hW : WF jobs0 s) {i : Nat} {l : List (Msg α ε)}
    (hj : s.jobs[i]? = some l) :
    ∃ l0, jobs0[i]? = some l0 ∧ ∀ m ∈ l, m ∈ l0 := by
  have hjlt : i < s.jobs.length := by
    by_contra hge
    push_neg at hge
    rw [List.getElem?_eq_none hge] at hj
    cases hj
  have hilt : i < jobs0.length := by rw [← hW.jobsLen]; exact hjlt
  have hj0 : jobs0[i]? = some (jobs0[i]) := List.getElem?_eq_getElem hilt
  refine ⟨jobs0[i], hj0, ?_⟩
  have heq := hW.logJobs i _ _ hj hj0
  intro m hm
  rw [← heq]
  exact List.mem_append_right _ hm

theorem initJobs_getElem {t : Nat → Except ε (HttpResp β)}
    {pageInit : Nat → β → Except ε (List (Option α))} {r1 : HttpResp β}
    {n i : Nat} (h : i < n) :
    (initJobs t pageInit r1 n)[i]? = some (jobMsgs t pageInit r1 (i + 1)) := by
  simp [initJobs, List.getElem?_map, List.getElem?_range h]

theorem initJobs_length (t : Nat → Except ε (HttpResp β))
    (pageInit : Nat → β → Except ε (List (Option α))) (r1 : HttpResp β)
    (n : Nat) : (initJobs t pageInit r1 n).length = n := by
  simp [initJobs]

/- ===================================================================
   §10  Maximal collect runs
   =================================================================== -/

theorem errsOf_eq_nil {log : List (Nat × Msg α ε)}
    (h : ∀ p ∈ log, ∃ o : α, p.2 = Msg.obj (some o)) : errsOf log = [] := by
  induction log with
  | nil => simp [errsOf]
  | cons p t ih =>
    obtain ⟨o, ho⟩ := h p (List.mem_cons_self _ _)
    have := ih (fun q hq => h q (List.mem_cons_of_mem _ hq))
    simp [errsOf, List.filterMap_cons, ho] at this ⊢
    exact this

theorem nilFree_of_allObj {log : List (Nat × Msg α ε)}
    (h : ∀ p ∈ log, ∃ o : α, p.2 = Msg.obj (some o)) : NilFree log := by
  intro p hp
  obtain ⟨o, ho⟩ := h p hp
  simp [ho]

/-- In a maximal run whose jobs only carry non-nil objects, collect has
returned (objects received, nil), the channels are closed and every job has
emptied: the clean-completion shape behind C1 and C6. -/
theorem collect_final {jobs0 : List (List (Msg α ε))}
    {s : EngSt α ε (Coll α ε)} (hW : WF jobs0 s) (hI : CInv s)
    (hmax : canStep (collectCons α ε) s = false)
    (hclean : ∀ (i : Nat) (l0 : List (Msg α ε)), jobs0[i]? = some l0 →
      ∀ m ∈ l0, ∃ o : α, m = Msg.obj (some o)) :
    s.cons = Coll.retOk (objsOf s.log) ∧ s.closed = true ∧
      (∀ (i : Nat), i < s.jobs.length → s.jobs[i]? = some []) := by
  have hstuck := stuck_of_canStep hmax
  have hlogobj : ∀ p ∈ s.log, ∃ o : α, p.2 = Msg.obj (some o) := by
    intro p hp
    obtain ⟨l0, hl0, hmem⟩ := log_msg_source hW p hp
    exact hclean p.1 l0 hl0 p.2 hmem
  have hE : errsOf s.log = [] := errsOf_eq_nil hlogobj
  have hN : NilFree s.log := nilFree_of_allObj hlogobj
  cases hc : s.cons with
  | retErr e =>
    simp only [CInv, hc] at hI
    rw [hE] at hI
    cases hI
  | running acc =>
    exfalso
    have hempty : ∀ (i : Nat), i < s.jobs.length → s.jobs[i]? = some [] := by
      intro i hi
      have hj : s.jobs[i]? = some (s.jobs[i]) := List.getElem?_eq_getElem hi
      cases hl : s.jobs[i] with
      | nil => rw [hl] at hj; exact hj
      | cons m rest =>
        exfalso
        rw [hl] at hj
        obtain ⟨l0, hl0, hmem⟩ := pending_msg_source hW hj
        obtain ⟨o, ho⟩ := hclean i l0 hl0 m (hmem m (List.mem_cons_self _ _))
        subst ho
        have := hstuck (Ev.deliver i)
        simp [step, hj, hc, collectCons] at this
    have hdone : ∀ (i : Nat), i < s.done.length → s.done[i]? = some true := by
      intro i hi
      have hd : s.done[i]? = some (s.done[i]) := List.getElem?_eq_getElem hi
      cases hb : s.done[i] with
      | true => rw [hb] at hd; exact hd
      | false =>
        exfalso
        rw [hb] at hd
        have hj : s.jobs[i]? = some [] := by
          apply hempty
          rw [← hW.doneLen]
          exact hi
        have := hstuck (Ev.jobDone i)
        simp [step, hj, hd] at this
    have hall : s.done.all (fun b => b) = true := by
      rw [List.all_eq_true]
      intro b hb
      obtain ⟨i, hi, hbi⟩ := List.mem_iff_getElem.mp hb
      have := hdone i hi
      rw [List.getElem?_eq_getElem hi, hbi] at this
      cases this
      rfl
    have hclosed : s.closed = true := by
      cases hcl : s.closed with
      | true => rfl
      | false =>
        exfalso
        have := hstuck Ev.close
        simp [step, hcl, hall] at this
    have := hstuck Ev.recvClosed
    simp [step, hclosed, hc, collectCons] at this
  | retOk acc =>
    simp only [CInv, hc] at hI
    obtain ⟨_, hD⟩ := hI
    have hacc : acc = objsOf s.log ∧ s.closed = true := by
      cases hD with
      | inl hD => exact ⟨hD.2.1, hD.2.2⟩
      | inr hD =>
        exfalso
        obtain ⟨l1, i, hlog, _, _⟩ := hD
        have : ((i, Msg.obj (none : Option α)) : Nat × Msg α ε) ∈ s.log := by
          rw [hlog]
          exact List.mem_append_right _ (List.mem_singleton.mpr rfl)
        have hnf := hN _ this
        simp at hnf
    refine ⟨by rw [hacc.1], hacc.2, ?_⟩
    intro i hi
    apply hW.doneEmpty
    apply hW.closedDone hacc.2
    rw [hW.doneLen]
    exact hi

theorem cleanPageB_spec {x : Except ε (List (Option α))}
    (h : cleanPageB x = true) :
    ∃ l, x = .ok l ∧ ∀ o ∈ l, ∃ a : α, o = some a := by
  cases x with
  | error e => simp [cleanPageB] at h
  | ok l =>
    refine ⟨l, rfl, ?_⟩
    intro o ho
    simp only [cleanPageB, List.all_eq_true] at h
    have := h o ho
    exact Option.isSome_iff_exists.mp this

theorem clean_initJobs {t : Nat → Except ε (HttpResp β)}
    {pageInit : Nat → β → Except ε (List (Option α))} {r : HttpResp β}
    {N : Nat}
    (hclean : ∀ p ∈ List.range N, cleanPageB (pageList t pageInit r (p + 1)) = true) :
    ∀ (i : Nat) (l0 : List (Msg α ε)),
      (initJobs t pageInit r N)[i]? = some l0 →
      ∀ m ∈ l0, ∃ o : α, m = Msg.obj (some o) := by
  intro i l0 hl0 m hm
  have hilt : i < N := by
    by_contra hge
    push_neg at hge
    rw [List.getElem?_eq_none (by simpa [initJobs_length] using hge)] at hl0
    cases hl0
  rw [initJobs_getElem hilt] at hl0
  cases hl0
  obtain ⟨l, hpl, hall⟩ := cleanPageB_spec (hclean i (List.mem_range.mpr hilt))
  rw [jobMsgs, hpl] at hm
  simp only [msgsOf, List.mem_map] at hm
  obtain ⟨o, ho, hmo⟩ := hm
  obtain ⟨a, ha⟩ := hall o ho
  exact ⟨a, by rw [← hmo, ha]⟩

/-- C1: for every successful run — the first response advertises a "last"
relation with page number n and every page's fetch-and-decode yields a
list of (non-nil) objects — and under every order of job completion,
collect returns the received objects with a nil error, and their number is
the sum of the lengths of the lists the decode function returned for pages
1..n. The concrete 3-pages-of-2 scenario is the witness below. -/
theorem c1_collect_length {α ε β : Type}
    (t : Nat → Except ε (HttpResp β))
    (pageInit : Nat → β → Except ε (List (Option α)))
    (n : Int) (r : HttpResp β) (evs : List Ev)
    (s : EngSt α ε (Coll α ε))
    (hfirst : firstReq t = .ok (n, r))
    (hn : 1 ≤ n)
    (hclean : ∀ p ∈ List.range n.toNat,
      cleanPageB (pageList t pageInit r (p + 1)) = true)
    (hexec : exec (collectCons α ε)
      (initSt (initJobs t pageInit r n.toNat) (Coll.running [])) evs = some s)
    (hmax : canStep (collectCons α ε) s = false) :
    collectReturn s.cons = some (some (objsOf s.log), none) ∧
      (objsOf s.log).length =
        Finset.sum (Finset.range n.toNat)
          (fun i => lenOf (pageList t pageInit r (i + 1))) := by
  have hW := WF_exec (WF_init (initJobs t pageInit r n.toNat) _) hexec
  have hI := CInv_exec (CInv_init (initJobs t pageInit r n.toNat)) hexec
  have hcleanJ := clean_initJobs hclean
  obtain ⟨hcons, hclosed, hempty⟩ := collect_final hW hI hmax hcleanJ
  have hlogobj : ∀ p ∈ s.log, ∃ o : α, p.2 = Msg.obj (some o) := by
    intro p hp
    obtain ⟨l0, hl0, hmem⟩ := log_msg_source hW p hp
    exact hcleanJ p.1 l0 hl0 p.2 hmem
  refine ⟨by rw [hcons]; rfl, ?_⟩
  have hlen0 : (objsOf s.log).length = s.log.length := objsOf_length _ hlogobj
  have hN : (initJobs t pageInit r n.toNat).length = n.toNat :=
    initJobs_length _ _ _ _
  have hidx : ∀ p ∈ s.log, p.1 < n.toNat := by
    intro p hp
    have := hW.logIdx p hp
    rw [hN] at this
    exact this
  have hlen1 : s.log.length =
      Finset.sum (Finset.range n.toNat)
        (fun i => (deliveredOf s.log i).length) :=
    log_length_partition n.toNat s.log hidx
  have hper : ∀ i ∈ Finset.range n.toNat,
      (deliveredOf s.log i).length =
        lenOf (pageList t pageInit r (i + 1)) := by
    intro i hyp
    have hilt : i < n.toNat := Finset.mem_range.mp hyp
    have hjlt : i < s.jobs.length := by rw [hW.jobsLen, hN]; exact hilt
    have hdel := hW.logJobs i [] (jobMsgs t pageInit r (i + 1))
      (hempty i hjlt) (initJobs_getElem hilt)
    rw [List.append_nil] at hdel
    rw [hdel]
    obtain ⟨l, hpl, _⟩ := cleanPageB_spec (hclean i (List.mem_range.mpr hilt))
    rw [jobMsgs, hpl]
    simp [msgsOf, lenOf]
  rw [hlen0, hlen1]
  exact Finset.sum_congr rfl hper

/-- C1, witness: the transport stub serves 3 pages of 2 objects each with
`Link: <...?page=3>; rel="last"`; under an out-of-order schedule collect
returns exactly the 6 decoded objects and a nil error. -/
theorem c1_collect_length_witness :
    collectReturn c1final.cons = some (some (objsOf c1final.log), none) ∧
      (objsOf c1final.log).length =
        Finset.sum (Finset.range (3 : Int).toNat)
          (fun i => lenOf (pageList c1t c1decode c1r (i + 1))) :=
  c1_collect_length c1t c1decode 3 c1r c1evs c1final
    (by decide) (by decide) (by decide) (by decide) (by decide)

/- ===================================================================
   §12  Claims C2 and C6
   =================================================================== -/

/-- Under a consumer that keeps draining, a maximal run has emptied every
job. -/
theorem drain_final {s : EngSt α ε Unit}
    (hmax : canStep (drainCons α ε) s = false) :
    ∀ (i : Nat), i < s.jobs.length → s.jobs[i]? = some [] := by
  have hstuck := stuck_of_canStep hmax
  intro i hi
  have hj : s.jobs[i]? = some (s.jobs[i]) := List.getElem?_eq_getElem hi
  cases hl : s.jobs[i] with
  | nil => rw [hl] at hj; exact hj
  | cons m rest =>
    exfalso
    rw [hl] at hj
    have := hstuck (Ev.deliver i)
    simp [step, hj, drainCons] at this

/-- C2: draining the two streams to completion, every job's messages are
delivered exactly once and in order (conjunct 1); a job whose GET fails, or
whose decode fails, consists of exactly the one error it pushes and then
terminates, leaving every other job's messages untouched (conjuncts 2-4);
and a successfully decoded page contributes exactly its objects
(conjunct 5). -/
theorem c2_partial_failure {α ε β : Type}
    (t : Nat → Except ε (HttpResp β))
    (pageInit : Nat → β → Except ε (List (Option α)))
    (r : HttpResp β) (n : Nat) (evs : List Ev) (s : EngSt α ε Unit)
    (hexec : exec (drainCons α ε)
      (initSt (initJobs t pageInit r n) ()) evs = some s)
    (hmax : canStep (drainCons α ε) s = false) :
    (∀ (i : Nat), i < n →
      deliveredOf s.log i = jobMsgs t pageInit r (i + 1)) ∧
    (∀ (p : Nat) (e : ε), 2 ≤ p → t p = .error e →
      jobMsgs t pageInit r p = [Msg.err e]) ∧
    (∀ (p : Nat) (resp : HttpResp β) (e : ε), 2 ≤ p → t p = .ok resp →
      pageInit p resp.body = .error e →
      jobMsgs t pageInit r p = [Msg.err e]) ∧
    (∀ (e : ε), pageInit 1 r.body = .error e →
      jobMsgs t pageInit r 1 = [Msg.err e]) ∧
    (∀ (p : Nat) (l : List (Option α)), pageList t pageInit r p = .ok l →
      jobMsgs t pageInit r p = l.map Msg.obj) := by
  have hW := WF_exec (WF_init (initJobs t pageInit r n) ()) hexec
  have hN : (initJobs t pageInit r n).length = n := initJobs_length _ _ _ _
  refine ⟨?_, ?_, ?_, ?_, ?_⟩
  · intro i hi
    have hjlt : i < s.jobs.length := by rw [hW.jobsLen, hN]; exact hi
    have hdel := hW.logJobs i [] (jobMsgs t pageInit r (i + 1))
      (drain_final hmax i hjlt) (initJobs_getElem hi)
    rw [List.append_nil] at hdel
    exact hdel
  · intro p e hp hte
    have hne : p ≠ 1 := by omega
    simp [jobMsgs, pageList, hne, hte, msgsOf]
  · intro p resp e hp hto hdec
    have hne : p ≠ 1 := by omega
    simp [jobMsgs, pageList, hne, hto, hdec, msgsOf]
  · intro e hdec
    simp [jobMsgs, pageList, hdec, msgsOf]
  · intro p l hl
    simp [jobMsgs, hl, msgsOf]

/-- C2, witness: page 2's GET fails with error 42, page 3's decode fails
with error 7, page 1 decodes two objects; each failing job delivers exactly
its one error, and page 1's two objects are delivered exactly once. -/
theorem c2_partial_failure_witness :
    deliveredOf c2final.log 0 = jobMsgs c2t c2decode c2r 1 ∧
      deliveredOf c2final.log 1 = jobMsgs c2t c2decode c2r 2 ∧
      deliveredOf c2final.log 2 = jobMsgs c2t c2decode c2r 3 ∧
      jobMsgs c2t c2decode c2r 2 = [Msg.err 42] ∧
      jobMsgs c2t c2decode c2r 3 = [Msg.err 7] ∧
      jobMsgs c2t c2decode c2r 1 = [Msg.obj (some 10), Msg.obj (some 11)] := by
  have h := c2_partial_failure c2t c2decode c2r 3 c2evs c2final
    (by decide) (by decide)
  exact ⟨h.1 0 (by decide), h.1 1 (by decide), h.1 2 (by decide),
    h.2.1 2 42 (by decide) (by decide),
    h.2.2.1 3 ⟨"<https://canvas.test/api/v1/files?page=3>; rel=\"last\"", 3⟩ 7
      (by decide) (by decide) (by decide),
    h.2.2.2.2 1 [some 10, some 11] (by decide)⟩

/-- C6: in every completed collect run, if any job managed to push an
error then exactly one error was ever received and collect returned
(nil, that error) — no partial results; and if every page decodes cleanly
to non-nil objects, collect returns the accumulated objects with a nil
error once the object channel is closed and every job has finished. -/
theorem c6_collect_result {α ε β : Type}
    (t : Nat → Except ε (HttpResp β))
    (pageInit : Nat → β → Except ε (List (Option α)))
    (n : Int) (r : HttpResp β) (evs : List Ev)
    (s : EngSt α ε (Coll α ε))
    (hfirst : firstReq t = .ok (n, r))
    (hn : 1 ≤ n)
    (hexec : exec (collectCons α ε)
      (initSt (initJobs t pageInit r n.toNat) (Coll.running [])) evs = some s)
    (hmax : canStep (collectCons α ε) s = false) :
    (∀ (e : ε) (rest : List ε), errsOf s.log = e :: rest →
      rest = [] ∧ collectReturn s.cons = some (none, some e)) ∧
    ((∀ p ∈ List.range n.toNat,
        cleanPageB (pageList t pageInit r (p + 1)) = true) →
      collectReturn s.cons = some (some (objsOf s.log), none) ∧
        s.closed = true ∧
        (∀ (i : Nat), i < s.jobs.length → s.jobs[i]? = some [])) := by
  have hW := WF_exec (WF_init (initJobs t pageInit r n.toNat) _) hexec
  have hI := CInv_exec (CInv_init (initJobs t pageInit r n.toNat)) hexec
  constructor
  · intro e rest herr
    cases hc : s.cons with
    | running acc =>
      simp only [CInv, hc] at hI
      rw [hI.1] at herr
      cases herr
    | retOk acc =>
      simp only [CInv, hc] at hI
      rw [hI.1] at herr
      cases herr
    | retErr e0 =>
      simp only [CInv, hc] at hI
      rw [hI] at herr
      cases herr
      exact ⟨rfl, rfl⟩
  · intro hclean
    obtain ⟨hcons, hclosed, hempty⟩ := collect_final hW hI hmax
      (clean_initJobs hclean)
    exact ⟨by rw [hcons]; rfl, hclosed, hempty⟩

/-- C6, witness: page 2's transport error reaches collect first; collect
returns (nil, 5) and accumulates nothing, although page 1's object is
still pending. -/
theorem c6_collect_result_witness :
    errsOf c6final.log = [5] ∧
      collectReturn c6final.cons = some (none, some 5) := by
  have h := c6_collect_result c6t c6decode 2 c6r
    [Ev.deliver 1, Ev.jobDone 1] c6final
    (by decide) (by decide) (by decide) (by decide)
  have h5 := h.1 5 [] (by decide)
  exact ⟨by decide, h5.2⟩

/- ===================================================================
   §13  Claim C3
   =================================================================== -/

/-- C3 as amended: (conjunct 1, every consumer and run) the channels are
closed at most once, and any close is preceded by the jobDone of all n
registered jobs; (conjunct 2) with a consumer that keeps draining, every
completed run closes them exactly once. (The original "exactly once in
every run" fails when the consumer aborts first: see the
counterexample.) -/
theorem c3_close_once_amended :
    (∀ (α ε σ : Type) (C : Consumer α ε σ)
      (jobs0 : List (List (Msg α ε))) (c0 : σ) (evs : List Ev)
      (s : EngSt α ε σ),
      exec C (initSt jobs0 c0) evs = some s →
        List.count Ev.close evs ≤ 1 ∧
        (∀ (l1 l2 : List Ev), evs = l1 ++ Ev.close :: l2 →
          ∀ (i : Nat), i < jobs0.length → Ev.jobDone i ∈ l1)) ∧
    (∀ (α ε : Type) (jobs0 : List (List (Msg α ε))) (evs : List Ev)
      (s : EngSt α ε Unit),
      exec (drainCons α ε) (initSt jobs0 ()) evs = some s →
      canStep (drainCons α ε) s = false →
      List.count Ev.close evs = 1) := by
  constructor
  · intro α ε σ C jobs0 c0 evs s hexec
    refine ⟨(close_count evs _ s hexec).2, ?_⟩
    intro l1 l2 hsplit i hi
    subst hsplit
    rw [exec_append] at hexec
    cases h1 : exec C (initSt jobs0 c0) l1 with
    | none => rw [h1] at hexec; cases hexec
    | some s1 =>
      rw [h1] at hexec
      simp only [exec] at hexec
      cases h2 : step C s1 Ev.close with
      | none => rw [h2] at hexec; cases hexec
      | some s2 =>
        obtain ⟨_, hall, _⟩ := step_close h2
        have hW1 := WF_exec (WF_init jobs0 c0) h1
        have hdlen : s1.done.length = jobs0.length := by
          rw [hW1.doneLen, hW1.jobsLen]
        have hdi : s1.done[i]? = some true := by
          have hilt : i < s1.done.length := by rw [hdlen]; exact hi
          have hd : s1.done[i]? = some (s1.done[i]) :=
            List.getElem?_eq_getElem hilt
          have hmem : s1.done[i] ∈ s1.done := List.getElem_mem hilt
          have := List.all_eq_true.mp hall _ hmem
          simp only at this
          rw [hd, this]
        cases done_origin l1 _ s1 h1 hdi with
        | inr hmem => exact hmem
        | inl hstart =>
          exfalso
          have hilt : i < jobs0.length := hi
          simp only [initSt] at hstart
          rw [List.getElem?_replicate_of_lt
            (by simpa using hilt)] at hstart
          cases hstart
  · intro α ε jobs0 evs s hexec hmax
    have hstuck := stuck_of_canStep hmax
    have hW := WF_exec (WF_init jobs0 ()) hexec
    have hclosed : s.closed = true := by
      cases hcl : s.closed with
      | true => rfl
      | false =>
        exfalso
        have hdone : ∀ (i : Nat), i < s.done.length →
            s.done[i]? = some true := by
          intro i hi
          have hd : s.done[i]? = some (s.done[i]) :=
            List.getElem?_eq_getElem hi
          cases hb : s.done[i] with
          | true => rw [hb] at hd; exact hd
          | false =>
            exfalso
            rw [hb] at hd
            have hj : s.jobs[i]? = some [] := by
              apply drain_final hmax
              rw [← hW.doneLen]
              exact hi
            have := hstuck (Ev.jobDone i)
            simp [step, hj, hd] at this
        have hall : s.done.all (fun b => b) = true := by
          rw [List.all_eq_true]
          intro b hb
          obtain ⟨i, hi, hbi⟩ := List.mem_iff_getElem.mp hb
          have := hdone i hi
          rw [List.getElem?_eq_getElem hi, hbi] at this
          cases this
          rfl
        have := hstuck Ev.close
        simp [step, hcl, hall] at this
    have hmem : Ev.close ∈ evs := by
      cases closed_origin evs _ s hexec hclosed with
      | inr hmem => exact hmem
      | inl hstart => simp [initSt] at hstart
    have hge : 0 < List.count Ev.close evs :=
      List.count_pos_iff_mem.mpr hmem
    have hle := (close_count evs _ s hexec).2
    omega

/-- C3, counterexample to the claim as stated: a 2-page run past the first
request (page 1's decode fails, page 2 has an object pending) in which
collect receives the error and returns; the run is then stuck — no step is
enabled, `stuck_of_canStep` — with no close ever performed, so the streams
are not closed exactly once in this run. -/
theorem c3_close_once_counterexample :
    firstReq c3t = .ok (2, c3r) ∧
      exec (collectCons Nat Unit)
        (initSt (initJobs c3t c3decode c3r (2 : Int).toNat)
          (Coll.running [])) c3evs = some c3final ∧
      canStep (collectCons Nat Unit) c3final = false ∧
      c3final.closed = false ∧
      List.count Ev.close c3evs = 0 :=
  ⟨by decide, by decide, by decide, by decide, by decide⟩

/-- C3, witness for the amended claim: in a drained 2-job run the close
happens exactly once, after both jobDone events. -/
theorem c3_close_once_witness :
    List.count Ev.close c3devs ≤ 1 ∧
      Ev.jobDone 0 ∈ c3dl1 ∧ Ev.jobDone 1 ∈ c3dl1 ∧
      List.count Ev.close c3devs = 1 := by
  have hA := c3_close_once_amended.1 Nat Unit Unit (drainCons Nat Unit)
    c3djobs () c3devs c3dfinal (by decide)
  have hB := c3_close_once_amended.2 Nat Unit c3djobs c3devs c3dfinal
    (by decide) (by decide)
  exact ⟨hA.1, hA.2 c3dl1 [] (by decide) 0 (by decide),
    hA.2 c3dl1 [] (by decide) 1 (by decide), hB⟩

/- ===================================================================
   §14  Claims C8 and C9
   =================================================================== -/

/-- Once the adapter goroutine has returned (its output channel closed by
the defer), its state never changes again: no object can be forwarded. -/
theorem adapter_finished_frozen {s s1 : EngSt α ε (AdSt α)} {ev : Ev}
    {out : List α} (h : step (adapterCons α ε) s ev = some s1)
    (hc : s.cons = AdSt.finished out) : s1.cons = AdSt.finished out := by
  cases ev with
  | deliver i =>
    obtain ⟨m, rest, c1, hj, hr, h1⟩ := step_deliver h
    rw [hc] at hr
    cases m with
    | err e => simp [adapterCons] at hr
    | obj o => cases o <;> simp [adapterCons] at hr
  | jobDone i =>
    obtain ⟨_, _, h1⟩ := step_jobDone h
    rw [h1]
    exact hc
  | close =>
    obtain ⟨_, _, h1⟩ := step_close h
    rw [h1]
    exact hc
  | recvClosed =>
    obtain ⟨c1, _, hr, h1⟩ := step_recvClosed h
    rw [hc] at hr
    simp [adapterCons] at hr
  | internal =>
    obtain ⟨c1, hr, h1⟩ := step_internal h
    rw [hc] at hr
    simp [adapterCons] at hr

theorem adapter_finished_frozen_exec {s s1 : EngSt α ε (AdSt α)}
    {evs : List Ev} {out : List α}
    (h : exec (adapterCons α ε) s evs = some s1)
    (hc : s.cons = AdSt.finished out) : s1.cons = AdSt.finished out :=
  exec_inv (fun x => x.cons = AdSt.finished out)
    (fun _ _ _ hP hs => adapter_finished_frozen hs hP) evs s s1 hc h

/-- C8: in any run of the onlyFiles / onlyFolders loop whose cancelling
error policy has buffered a quit value, once the select takes the quit
case (the internal step) the loop returns with its output closed over
exactly the objects forwarded so far, and no object is forwarded
afterwards, whatever the remaining jobs still hold. -/
theorem c8_adapter_quit {α ε : Type}
    (jobs0 : List (List (Msg α ε))) (l1 l2 : List Ev)
    (s1 s2 s : EngSt α ε (AdSt α)) (out : List α)
    (h1 : exec (adapterCons α ε)
      (initSt jobs0 (AdSt.running false [])) l1 = some s1)
    (hq : s1.cons = AdSt.running true out)
    (h2 : step (adapterCons α ε) s1 Ev.internal = some s2)
    (h3 : exec (adapterCons α ε) s2 l2 = some s) :
    s2.cons = AdSt.finished out ∧ s.cons = AdSt.finished out := by
  obtain ⟨c1, hr, hs2⟩ := step_internal h2
  rw [hq] at hr
  simp only [adapterCons] at hr
  cases hr
  have hs2c : s2.cons = AdSt.finished out := by rw [hs2]
  exact ⟨hs2c, adapter_finished_frozen_exec h3 hs2c⟩

/-- C8, witness: the one job errs, the policy buffers quit, the select
takes it; the adapter closes its output having forwarded nothing, with the
job's object still pending. -/
theorem c8_adapter_quit_witness :
    c8mid.cons = AdSt.finished ([] : List Nat) ∧
      c8mid.cons = AdSt.finished ([] : List Nat) :=
  c8_adapter_quit c8jobs [Ev.deliver 0] [] c8s1 c8mid c8mid []
    (by decide) (by decide) (by decide) (by decide)

/-- After collect has returned cleanly its state never changes again. -/
theorem collect_retOk_frozen {s s1 : EngSt α ε (Coll α ε)} {ev : Ev}
    {a : List α} (h : step (collectCons α ε) s ev = some s1)
    (hc : s.cons = Coll.retOk a) : s1.cons = Coll.retOk a := by
  cases ev with
  | deliver i =>
    obtain ⟨m, rest, c1, hj, hr, h1⟩ := step_deliver h
    rw [hc] at hr
    simp [collectCons] at hr
  | jobDone i =>
    obtain ⟨_, _, h1⟩ := step_jobDone h
    rw [h1]
    exact hc
  | close =>
    obtain ⟨_, _, h1⟩ := step_close h
    rw [h1]
    exact hc
  | recvClosed =>
    obtain ⟨c1, _, hr, h1⟩ := step_recvClosed h
    rw [hc] at hr
    simp [collectCons] at hr
  | internal =>
    obtain ⟨c1, hr, h1⟩ := step_internal h
    simp [collectCons] at hr

theorem collect_retOk_frozen_exec {s s1 : EngSt α ε (Coll α ε)}
    {evs : List Ev} {a : List α}
    (h : exec (collectCons α ε) s evs = some s1)
    (hc : s.cons = Coll.retOk a) : s1.cons = Coll.retOk a :=
  exec_inv (fun x => x.cons = Coll.retOk a)
    (fun _ _ _ hP hs => collect_retOk_frozen hs hP) evs s s1 hc h

/-- C9: a nil object produced by the decode function is indistinguishable
from the closed object channel. When collect receives it, collect returns
the objects accumulated so far with a nil error and stays returned for the
rest of the run, whatever the other jobs still hold (conjunct 1); when the
onlyFiles / onlyFolders loop receives it, the loop returns and closes its
typed output (conjunct 2). -/
theorem c9_nil_object {α ε : Type} :
    (∀ (jobs0 : List (List (Msg α ε))) (l1 l2 : List Ev)
      (s1 s2 s : EngSt α ε (Coll α ε)) (i : Nat) (acc : List α)
      (rest : List (Msg α ε)),
      exec (collectCons α ε) (initSt jobs0 (Coll.running [])) l1 = some s1 →
      s1.cons = Coll.running acc →
      s1.jobs[i]? = some (Msg.obj none :: rest) →
      step (collectCons α ε) s1 (Ev.deliver i) = some s2 →
      exec (collectCons α ε) s2 l2 = some s →
      s2.cons = Coll.retOk acc ∧
        collectReturn s.cons = some (some acc, none)) ∧
    (∀ (q : Bool) (out : List α),
      (adapterCons α ε).recvMsg (AdSt.running q out) (Msg.obj none) =
        some (AdSt.finished out)) := by
  constructor
  · intro jobs0 l1 l2 s1 s2 s i acc rest hexec1 hcons hjob hstep hexec2
    obtain ⟨m, rest1, c1, hj, hr, h1⟩ := step_deliver hstep
    rw [hjob] at hj
    cases hj
    rw [hcons] at hr
    simp only [collectCons] at hr
    cases hr
    have hs2 : s2.cons = Coll.retOk acc := by rw [h1]
    exact ⟨hs2, by rw [collect_retOk_frozen_exec hexec2 hs2]; rfl⟩
  · intro q out
    cases q <;> rfl

/-- C9, witness: job 1 decodes to an object and then a nil; on the nil,
collect returns ([4], nil) although job 2's error is still pending; the
adapter likewise closes its output on a nil object. -/
theorem c9_nil_object_witness :
    (c9s2.cons = Coll.retOk [4] ∧
      collectReturn c9final.cons = some (some [4], none)) ∧
      (adapterCons Nat Nat).recvMsg (AdSt.running false [1, 2])
        (Msg.obj none) = some (AdSt.finished [1, 2]) :=
  ⟨(@c9_nil_object Nat Nat).1 c9jobs [Ev.deliver 0]
      [Ev.jobDone 0] c9s1 c9s2 c9final 0 [4] []
      (by decide) (by decide) (by decide) (by decide) (by decide),
    (@c9_nil_object Nat Nat).2 false [1, 2]⟩

/-- The error path deadlocks immediately: the send can only complete by
rendezvous with a different goroutine, and the only would-be receiver is
this same goroutine's own later receive loop. -/
theorem errPath_stuck (e : EngErr ε) :
    ∀ ev, fpStep (errPathSys e) ev = none := by
  intro ev
  cases ev with
  | solo i =>
    cases i with
    | zero => rfl
    | succ n => simp [fpStep, errPathSys]
  | comm i j =>
    by_cases hij : i = j
    · simp [fpStep, hij]
    · cases i with
      | zero =>
        cases j with
        | zero => exact absurd rfl hij
        | succ m => simp [fpStep, hij, errPathSys]
      | succ n => simp [fpStep, hij, errPathSys]

/-- From a fully stuck system nothing is ever reached but itself. -/
theorem fpExec_stuck {s0 : FPSys ε}
    (hstuck : ∀ ev, fpStep s0 ev = none) :
    ∀ (evs : List FPEv) (s : FPSys ε), fpExec s0 evs = some s → s = s0 := by
  intro evs s h
  cases evs with
  | nil =>
    simp only [fpExec] at h
    cases h
    rfl
  | cons ev t =>
    rw [fpExec, hstuck ev] at h
    cases h

/-- C5 (evidence for the code bug): when the transport fails on page 1,
firstReq reports the transport error after exactly one transport call and
channel takes the error path spawning no page fetches — but the error
path's send on the unbuffered error stream blocks forever (no goroutine is
receiving: every in-repo caller starts its receive loop only after channel
returns), so contrary to the claim nothing is ever pushed, neither stream
is ever closed, and collect never returns. -/
theorem c5_first_transport_error :
    firstReq c5t = .error (.transport ()) ∧
      (firstReqW c5t).2 = [1] ∧
      channelModel c5t = ChanOutcome.errPath (.transport ()) ∧
      jobsLaunched (channelModel c5t) = 0 ∧
      (∀ ev, fpStep (errPathSys (EngErr.transport () : EngErr Unit)) ev
        = none) ∧
      (∀ (evs : List FPEv) (s : FPSys Unit),
        fpExec (errPathSys (EngErr.transport ())) evs = some s →
        s.errsClosed = false ∧ s.objsClosed = false ∧ s.delivered = []) := by
  refine ⟨by decide, by decide, by decide, by decide, errPath_stuck _, ?_⟩
  intro evs s h
  have := fpExec_stuck (errPath_stuck (EngErr.transport ())) evs s h
  subst this
  exact ⟨rfl, rfl, rfl⟩

/-- C5, witness: the run of length zero already exhibits the deadlocked
state: nothing delivered, nothing closed. -/
theorem c5_first_transport_error_witness :
    (errPathSys (EngErr.transport () : EngErr Unit)).errsClosed = false ∧
      (errPathSys (EngErr.transport () : EngErr Unit)).objsClosed = false ∧
      (errPathSys (EngErr.transport () : EngErr Unit)).delivered = [] :=
  c5_first_transport_error.2.2.2.2.2 [] _ (by decide)

/-- C4 (evidence for the code bug): a first response whose Link header has
no "last" relation makes firstReq fail with the "could not find last page"
error after exactly one transport call, and channel launches zero page
fetches — but, contrary to the claim, both streams are never closed: the
error path blocks forever on the unbuffered error-channel send before
reaching either close. -/
theorem c4_no_last_relation :
    firstReq c4t = .error .lastNotFound ∧
      (firstReqW c4t).2 = [1] ∧
      channelModel c4t = ChanOutcome.errPath .lastNotFound ∧
      jobsLaunched (channelModel c4t) = 0 ∧
      (∀ ev, fpStep (errPathSys (EngErr.lastNotFound : EngErr Unit)) ev
        = none) ∧
      (∀ (evs : List FPEv) (s : FPSys Unit),
        fpExec (errPathSys EngErr.lastNotFound) evs = some s →
        s.errsClosed = false ∧ s.objsClosed = false ∧ s.delivered = []) := by
  refine ⟨by decide, by decide, by decide, by decide, errPath_stuck _, ?_⟩
  intro evs s h
  have := fpExec_stuck (errPath_stuck (EngErr.lastNotFound : EngErr Unit))
    evs s h
  subst this
  exact ⟨rfl, rfl, rfl⟩

/-- C4, witness. -/
theorem c4_no_last_relation_witness :
    (errPathSys (EngErr.lastNotFound : EngErr Unit)).errsClosed = false ∧
      (errPathSys (EngErr.lastNotFound : EngErr Unit)).objsClosed = false ∧
      (errPathSys (EngErr.lastNotFound : EngErr Unit)).delivered = [] :=
  c4_no_last_relation.2.2.2.2.2 [] _ (by decide)

/- ===================================================================
   §16  Claims C7 and C10
   =================================================================== -/

theorem newlink_fst_of_err {u : String} {e : ParseErr}
    (h : (newlink u).2 = some e) : (newlink u).1 = none := by
  unfold newlink at h ⊢
  cases hp : parseInt32 (queryGet u "page") with
  | none => simp [hp]
  | some v => rw [hp] at h; simp at h

theorem linkLoop_err {ms : List (String × String)} :
    ∀ (m0 : LinksMap), (∃ p ∈ ms, ((newlink p.1).2).isSome = true) →
      ((linkLoop ms m0).2).isSome = true := by
  induction ms with
  | nil =>
    intro m0 h
    obtain ⟨p, hp, _⟩ := h
    cases hp
  | cons q rest ih =>
    intro m0 h
    obtain ⟨u, rel⟩ := q
    cases he : (newlink u).2 with
    | some e => simp [linkLoop, he]
    | none =>
      simp only [linkLoop, he]
      apply ih
      obtain ⟨p, hp, hbad⟩ := h
      cases List.mem_cons.mp hp with
      | inl hph =>
        exfalso
        subst hph
        rw [he] at hbad
        cases hbad
      | inr hpt => exact ⟨p, hpt, hbad⟩

/-- C7: whatever the Link header value, a matched `<URL>; rel="NAME"` link
whose URL has a missing or non-numeric page query parameter — i.e. one on
which ParseInt fails; a missing parameter reads as "" — makes
newLinkedResource return a non-nil error, and newlink itself returns a nil
link together with the "could not parse page num" error, never a link with
a defaulted page number. -/
theorem c7_bad_page_param (h u rel : String)
    (hmem : (u, rel) ∈ findLinks h)
    (hbad : parseInt32 (queryGet u "page") = none) :
    ((newLinkedResource h).2).isSome = true ∧
      (newlink u).1 = none ∧
      (newlink u).2 = some (ParseErr.pageNum (queryGet u "page")) := by
  have hsnd : (newlink u).2 = some (ParseErr.pageNum (queryGet u "page")) := by
    unfold newlink
    rw [hbad]
  refine ⟨?_, newlink_fst_of_err hsnd, hsnd⟩
  unfold newLinkedResource
  exact linkLoop_err [] ⟨(u, rel), hmem, by rw [hsnd]; rfl⟩

/-- C7, witness: `<https://canvas.test/files?page=x>; rel="last"` — the
page parameter x is non-numeric, the parse fails, no page defaults to 1. -/
theorem c7_bad_page_param_witness :
    ((newLinkedResource "<https://canvas.test/files?page=x>; rel=\"last\"").2).isSome
        = true ∧
      (newlink "https://canvas.test/files?page=x").1 = none ∧
      (newlink "https://canvas.test/files?page=x").2 =
        some (ParseErr.pageNum
          (queryGet "https://canvas.test/files?page=x" "page")) :=
  c7_bad_page_param "<https://canvas.test/files?page=x>; rel=\"last\""
    "https://canvas.test/files?page=x" "last" (by decide) (by decide)

theorem linkLoop_append_good {pre : List (String × String)} :
    ∀ (m0 : LinksMap), (∀ p ∈ pre, (newlink p.1).2 = none) →
      ∀ (rest : List (String × String)),
        linkLoop (pre ++ rest) m0 = linkLoop rest (linkLoop pre m0).1 := by
  induction pre with
  | nil => intro m0 _ rest; simp [linkLoop]
  | cons q t ih =>
    intro m0 hgood rest
    obtain ⟨u, rel⟩ := q
    have hq : (newlink u).2 = none :=
      hgood (u, rel) (List.mem_cons_self _ _)
    simp only [List.cons_append, linkLoop, hq]
    exact ih _ (fun p hp => hgood p (List.mem_cons_of_mem _ hp)) rest

/-- C10 as amended: when the first failing match is reached, the loop
returns the error together with the map holding the successfully parsed
matches before it — and additionally the failing match's relation, mapped
to a nil link, because Go's two-value assignment stores newlink's nil
result before the error check. Relations matched after the failure are
absent. -/
theorem c10_partial_linkset (h : String) (pre post : List (String × String))
    (u rel : String) (e : ParseErr)
    (hsplit : findLinks h = pre ++ (u, rel) :: post)
    (hpre : ∀ p ∈ pre, (newlink p.1).2 = none)
    (hbad : (newlink u).2 = some e) :
    newLinkedResource h = (setRel (linkLoop pre []).1 rel none, some e) := by
  unfold newLinkedResource
  rw [hsplit, linkLoop_append_good [] hpre]
  have hfst := newlink_fst_of_err hbad
  simp [linkLoop, hbad, hfst]

/-- C10, counterexample to the claim as stated: the header's second match
(rel "last") has no page parameter and fails, yet the returned LinkSet is
not "exactly the relations parsed before the failure" — it also contains
"last", mapped to a nil link, alongside the returned error. -/
theorem c10_partial_linkset_counterexample :
    getRel (newLinkedResource c10h).1 "last" = some none ∧
      (newLinkedResource c10h).2 = some (ParseErr.pageNum "") ∧
      getRel (newLinkedResource c10h).1 "prev" =
        some (some ⟨"https://canvas.test/a?page=2", 2⟩) :=
  ⟨by decide, by decide, by decide⟩

/-- C10, witness for the amended claim, on the same header: the result is
exactly the pre-failure map extended with the failing rel bound to nil. -/
theorem c10_partial_linkset_witness :
    newLinkedResource c10h =
      (setRel (linkLoop [("https://canvas.test/a?page=2", "prev")] []).1
        "last" none, some (ParseErr.pageNum "")) :=
  c10_partial_linkset c10h [("https://canvas.test/a?page=2", "prev")] []
    "https://canvas.test/b" "last" (ParseErr.pageNum "")
    (by decide) (by decide) (by decide)
end GoCanvas
